import Mathlib

/-!
Verification of the `multi-threaded-fs` core against its specification.

The C++ sources are embedded shallowly:
* byte sequences (`std::string` contents, `std::vector<uint8_t>`) become
  `List Nat` of byte values; the `char` / `uint8_t` casts in the source are
  value-preserving and therefore disappear;
* machine integers become `Nat`, with an explicit `% 2 ^ 32` where the source
  truncates (`static_cast<uint32_t>`);
* `std::unordered_map` / `std::list` / `std::queue` / `std::stack` become
  association lists and plain lists; wall-clock timestamp fields
  (`lastAccessed`, `createdAt`, timing averages) never influence the control
  flow of any claim and are omitted;
* functions that throw become functions into `Except` / `Option`, and the
  unbounded `while` loop of `EnhancedLRUCache::evict` is given an explicit
  fuel argument, with `none` marking an execution that exhausts every fuel
  bound, i.e. a non-terminating C++ execution.
-/

set_option maxHeartbeats 1000000

/-! ## Association-list helpers (model of `std::unordered_map` lookup/erase/assign) -/

/-- First-match lookup in an association list (the maps in the source keep
their keys unique, so this is exactly `unordered_map::find`). -/
def alookup {κ ν : Type} [DecidableEq κ] : List (κ × ν) → κ → Option ν
  | [], _ => none
  | (a, b) :: rest, k => if k = a then some b else alookup rest k

/-- Erase the entry with the given key (model of `unordered_map::erase`). -/
def aremove {κ ν : Type} [DecidableEq κ] : List (κ × ν) → κ → List (κ × ν)
  | [], _ => []
  | (a, b) :: rest, k => if k = a then rest else (a, b) :: aremove rest k

/-- Replace the value stored at a key, leaving the list unchanged when the
key is absent (model of assigning through a found iterator). -/
def aset {κ ν : Type} [DecidableEq κ] : List (κ × ν) → κ → ν → List (κ × ν)
  | [], _, _ => []
  | (a, b) :: rest, k, v => if k = a then (k, v) :: rest else (a, b) :: aset rest k v

/-- Assign through `operator[]`: update the entry when present, insert it
otherwise (model of `map[key] = value`). -/
def asetD {κ ν : Type} [DecidableEq κ] (l : List (κ × ν)) (k : κ) (v : ν) : List (κ × ν) :=
  if (alookup l k).isSome then aset l k v else (k, v) :: l

@[simp] theorem alookup_nil {κ ν : Type} [DecidableEq κ] (k : κ) :
    alookup ([] : List (κ × ν)) k = none := rfl

@[simp] theorem alookup_cons {κ ν : Type} [DecidableEq κ] (a : κ) (b : ν) (rest : List (κ × ν))
    (k : κ) : alookup ((a, b) :: rest) k = if k = a then some b else alookup rest k := rfl

theorem alookup_some_length_aremove {κ ν : Type} [DecidableEq κ] :
    ∀ (l : List (κ × ν)) (k : κ) (v : ν), alookup l k = some v →
      (aremove l k).length + 1 = l.length := by
  intro l
  induction l with
  | nil => intro k v h; simp [alookup] at h
  | cons hd tl ih =>
    intro k v h
    obtain ⟨a, b⟩ := hd
    by_cases hk : k = a
    · simp [aremove, hk]
    · simp only [alookup_cons, hk, if_false] at h
      simp [aremove, hk, ih k v h]

theorem aset_length {κ ν : Type} [DecidableEq κ] :
    ∀ (l : List (κ × ν)) (k : κ) (v : ν), (aset l k v).length = l.length := by
  intro l
  induction l with
  | nil => intro k v; rfl
  | cons hd tl ih =>
    intro k v
    obtain ⟨a, b⟩ := hd
    by_cases hk : k = a <;> simp [aset, hk, ih]

theorem alookup_aset_self {κ ν : Type} [DecidableEq κ] :
    ∀ (l : List (κ × ν)) (k : κ) (v w : ν), alookup l k = some w →
      alookup (aset l k v) k = some v := by
  intro l
  induction l with
  | nil => intro k v w h; simp [alookup] at h
  | cons hd tl ih =>
    intro k v w h
    obtain ⟨a, b⟩ := hd
    by_cases hk : k = a
    · simp [aset, hk]
    · simp only [alookup_cons, hk, if_false] at h
      simp [aset, hk, ih k v w h]

/-! ## Codec (`src/fs/src/compression.cpp`)

Bytes are modelled as `Nat` values; the `char ↔ uint8_t` casts of the source
are bijections on byte values and vanish in the model. -/

/-- Count how many leading elements of the list equal `c`, stopping after
`cap` elements.  This is the `while (… data[i+count] == currentChar && count < 255)`
scan of `FileCompression::rleCompress` with `cap = 254` (the run starts at 1). -/
def countRun (c : Nat) : List Nat → Nat → Nat × List Nat
  | [], _ => (0, [])
  | x :: xs, cap =>
    if cap = 0 then (0, x :: xs)
    else if x = c then
      let r := countRun c xs (cap - 1)
      (r.1 + 1, r.2)
    else (0, x :: xs)

theorem countRun_append (c : Nat) :
    ∀ (l : List Nat) (cap : Nat),
      List.replicate (countRun c l cap).1 c ++ (countRun c l cap).2 = l := by
  intro l
  induction l with
  | nil => intro cap; simp [countRun]
  | cons x xs ih =>
    intro cap
    by_cases hcap : cap = 0
    · simp [countRun, hcap]
    · by_cases hx : x = c
      · simp only [countRun, hcap, if_false, hx, if_true]
        have := ih (cap - 1)
        simp [List.replicate_succ, hx, this]
      · simp [countRun, hcap, hx]

theorem countRun_rest_le (c : Nat) (l : List Nat) (cap : Nat) :
    (countRun c l cap).2.length ≤ l.length := by
  conv_rhs => rw [← countRun_append c l cap]
  simp

/-- Run-length compression body: alternating `(count, byte)` values, runs
capped at 255 (`FileCompression::rleCompress`). -/
def rleCompress : List Nat → List Nat
  | [] => []
  | c :: rest =>
    ((countRun c rest 254).1 + 1) :: c :: rleCompress (countRun c rest 254).2
termination_by l => l.length
decreasing_by
  simp only [List.length_cons]
  exact Nat.lt_succ_of_le (countRun_rest_le c rest 254)

/-- Run-length decompression body (`FileCompression::rleDecompress`); a
trailing unpaired byte is ignored, exactly as the `i + 1 < data.size()`
guard does. -/
def rleDecompress : List Nat → List Nat
  | a :: b :: rest => List.replicate a b ++ rleDecompress rest
  | _ => []

theorem rle_roundtrip_aux :
    ∀ (n : Nat) (l : List Nat), l.length ≤ n → rleDecompress (rleCompress l) = l := by
  intro n
  induction n with
  | zero =>
    intro l hl
    have : l = [] := List.length_eq_zero.mp (Nat.le_zero.mp hl)
    subst this
    simp [rleCompress, rleDecompress]
  | succ n ih =>
    intro l hl
    match l with
    | [] => simp [rleCompress, rleDecompress]
    | c :: rest =>
      rw [rleCompress]
      rw [rleDecompress]
      have hlen : (countRun c rest 254).2.length ≤ n := by
        have h1 := countRun_rest_le c rest 254
        have h2 : rest.length ≤ n := by simpa using Nat.lt_succ_iff.mp (Nat.lt_of_lt_of_le (by simp) hl)
        omega
      rw [ih _ hlen]
      have happ := countRun_append c rest 254
      calc List.replicate ((countRun c rest 254).1 + 1) c ++ (countRun c rest 254).2
          = c :: (List.replicate (countRun c rest 254).1 c ++ (countRun c rest 254).2) := by
            simp [List.replicate_succ]
        _ = c :: rest := by rw [happ]

theorem rle_roundtrip (l : List Nat) : rleDecompress (rleCompress l) = l :=
  rle_roundtrip_aux l.length l (Nat.le_refl _)

/-- The framed compression header (`FileCompression::CompressionHeader`);
the 32-bit fields carry their truncated values explicitly. -/
structure CompressionHeader where
  magic : Nat
  version : Nat
  originalSize : Nat
  compressedSize : Nat
  compressionType : Nat
deriving DecidableEq, Repr

def COMPRESSION_MAGIC : Nat := 0x4D544653
def COMPRESSION_VERSION : Nat := 1

/-- Errors thrown by `FileCompression::decompress` (its `runtime_error`s). -/
inductive DecompressError where
  | badMagic
  | badVersion
  | badType
  | sizeMismatch
deriving DecidableEq, Repr

namespace FileCompression

/-- `FileCompression::compress`: the RLE body framed with a header whose size
fields are truncated to 32 bits (`static_cast<uint32_t>`). -/
def compress (data : List Nat) : CompressionHeader × List Nat :=
  let rle := rleCompress data
  ({ magic := COMPRESSION_MAGIC
     version := COMPRESSION_VERSION
     originalSize := data.length % 2 ^ 32
     compressedSize := rle.length % 2 ^ 32
     compressionType := 0 }, rle)

/-- `FileCompression::decompress`: validate magic, version and type, rebuild
the body, and reject when the rebuilt length differs from the header's
`originalSize`.  (The `size < sizeof(CompressionHeader)` guard concerns the
raw byte framing, which the structured pair renders unrepresentable.) -/
def decompress (buf : CompressionHeader × List Nat) : Except DecompressError (List Nat) :=
  if buf.1.magic ≠ COMPRESSION_MAGIC then .error .badMagic
  else if buf.1.version ≠ COMPRESSION_VERSION then .error .badVersion
  else if buf.1.compressionType = 0 then
    let r := rleDecompress buf.2
    if r.length ≠ buf.1.originalSize then .error .sizeMismatch else .ok r
  else .error .badType

end FileCompression

/-! ## Journal (`src/journal/src/journal.cpp`) -/

/-- One journal record; of the source's fields only the sequence number and
the opaque payload are claim-relevant (the timestamp is wall-clock). -/
structure JournalEntry where
  sequenceNumber : Nat
  metadata : List Nat
deriving DecidableEq, Repr

structure Journal where
  entries : List JournalEntry
  currentSequence : Nat
  inTransaction : Bool
deriving DecidableEq, Repr

namespace Journal

/-- The freshly initialized journal (`Journal::initialize` resets to this
state; `initialize` itself is a reserved word in Lean). -/
def init : Journal :=
  { entries := [], currentSequence := 0, inTransaction := false }

/-- `Journal::logOperation`: bump the sequence counter and append a record. -/
def logOperation (j : Journal) (op : List Nat) : Journal :=
  { j with
    currentSequence := j.currentSequence + 1
    entries := j.entries ++ [{ sequenceNumber := j.currentSequence + 1, metadata := op }] }

/-- `Journal::checkpoint`: the body only emits a log line; the journal state
is untouched. -/
def checkpoint (j : Journal) : Journal := j

/-- `Journal::clear`: drop all entries and reset the sequence counter. -/
def clear (_j : Journal) : Journal :=
  { entries := [], currentSequence := 0, inTransaction := false }

/-- `Journal::getEntries`. -/
def getEntries (j : Journal) (fromSeq toSeq : Nat) : List JournalEntry :=
  j.entries.filter (fun e => decide (fromSeq ≤ e.sequenceNumber) && decide (e.sequenceNumber ≤ toSeq))

/-- `Journal::needsRecovery`. -/
def needsRecovery (j : Journal) : Bool :=
  !j.entries.isEmpty && j.inTransaction

end Journal

/-! ## Cache statistics (`src/cache/include/cache/enhanced_cache.hpp`)

The `hitRate` field is a `double` in the source; it is modelled in exact
rational arithmetic.  Every value the claims exercise (`0`, `50`, `100`) is
exactly representable as a `double`, so the rational model and the `double`
agree on them. -/

structure CacheStatistics where
  hits : Nat := 0
  misses : Nat := 0
  evictions : Nat := 0
  totalAccesses : Nat := 0
  pinnedItems : Nat := 0
  prefetchedItems : Nat := 0
  hitRate : ℚ := 0
deriving DecidableEq, Repr

namespace CacheStatistics

/-- `CacheStatistics::updateHitRate`: `totalAccesses = hits + misses` and
`hitRate = (hits / totalAccesses) * 100` (a percentage), `0` when there were
no accesses. -/
def updateHitRate (st : CacheStatistics) : CacheStatistics :=
  let total := st.hits + st.misses
  { st with
    totalAccesses := total
    hitRate := if total > 0 then mkRat (st.hits * 100) total else 0 }

end CacheStatistics

/-- The per-policy operation alphabet used to state trace invariants
(`put`, `get`, `remove`, `clear`, `pin`, `unpin`, `prefetch`,
`resetStatistics` from the common `CacheInterface`). -/
inductive CacheOp (κ ν : Type) where
  | put (k : κ) (v : ν)
  | get (k : κ)
  | remove (k : κ)
  | clear
  | pin (k : κ)
  | unpin (k : κ)
  | prefetch (k : κ) (v : ν)
  | resetStatistics
deriving Repr

/-! ## LRU policy cache (`EnhancedLRUCache`, `enhanced_cache.tpp` lines 10-189)

`entries` is the recency list, most recently used at the head; `lookup` of
the source is the association structure itself.  The per-entry
`accessCount` / timestamp fields never steer control flow and are omitted. -/

structure EnhancedLRUCache (κ ν : Type) where
  maxCapacity : Nat
  entries : List (κ × ν) := []
  pinnedKeys : List κ := []
  stats : CacheStatistics := {}
deriving DecidableEq, Repr

namespace EnhancedLRUCache

variable {κ ν : Type} [DecidableEq κ]

/-- The eviction loop of `EnhancedLRUCache::evict`, with explicit fuel.
Each iteration inspects the tail of the recency list: an unpinned tail is
evicted; a pinned tail is rotated to the front (`moveToFront`), after which
the loop stops only when `entries.size() <= 1`.  `none` means every fuel
bound is exhausted, i.e. the C++ loop does not terminate. -/
def evictGo (pinned : List κ) : Nat → List (κ × ν) → Option (List (κ × ν) × Bool)
  | _, [] => some ([], false)
  | 0, _ :: _ => none
  | fuel + 1, x :: xs =>
    match (x :: xs).getLast? with
    | none => some ([], false)
    | some e =>
      if e.1 ∈ pinned then
        let rotated := e :: (x :: xs).dropLast
        if rotated.length ≤ 1 then some (rotated, false)
        else evictGo pinned fuel rotated
      else some ((x :: xs).dropLast, true)

/-- Fuel bound that is sufficient whenever the C++ loop terminates: the tail
pointer walks backwards through the original list, so at most
`entries.size()` rotations precede an eviction or a break. -/
def evictFuel (l : List (κ × ν)) : Nat := 2 * l.length + 2

/-- `EnhancedLRUCache::evict` as called by `put`/`prefetch`; `none` marks the
divergent executions. -/
def evict (c : EnhancedLRUCache κ ν) : Option (EnhancedLRUCache κ ν) :=
  match evictGo c.pinnedKeys (evictFuel c.entries) c.entries with
  | none => none
  | some (l, removed) =>
    some { c with
      entries := l
      stats := if removed then { c.stats with evictions := c.stats.evictions + 1 } else c.stats }

/-- `EnhancedLRUCache::put`. -/
def put (c : EnhancedLRUCache κ ν) (k : κ) (v : ν) : Option (EnhancedLRUCache κ ν) :=
  match alookup c.entries k with
  | some _ =>
    -- update value, refresh timestamp, move to front
    some { c with entries := (k, v) :: aremove c.entries k }
  | none =>
    if c.entries.length ≥ c.maxCapacity then
      match c.evict with
      | none => none
      | some c2 => some { c2 with entries := (k, v) :: c2.entries }
    else
      some { c with entries := (k, v) :: c.entries }

/-- `EnhancedLRUCache::get`: a miss increments `misses` (and throws, which
the `Option ν` component reports); a hit moves the entry to the front and
increments `hits`; both paths run `updateHitRate`. -/
def get (c : EnhancedLRUCache κ ν) (k : κ) : Option ν × EnhancedLRUCache κ ν :=
  match alookup c.entries k with
  | none =>
    (none, { c with stats := CacheStatistics.updateHitRate { c.stats with misses := c.stats.misses + 1 } })
  | some v =>
    (some v,
     { c with
       entries := (k, v) :: aremove c.entries k
       stats := CacheStatistics.updateHitRate { c.stats with hits := c.stats.hits + 1 } })

/-- `EnhancedLRUCache::contains`. -/
def contains (c : EnhancedLRUCache κ ν) (k : κ) : Bool :=
  (alookup c.entries k).isSome

/-- `EnhancedLRUCache::remove`. -/
def remove (c : EnhancedLRUCache κ ν) (k : κ) : EnhancedLRUCache κ ν :=
  match alookup c.entries k with
  | none => c
  | some _ =>
    { c with
      entries := aremove c.entries k
      pinnedKeys := c.pinnedKeys.filter (fun x => decide (x ≠ k)) }

/-- `EnhancedLRUCache::clear`. -/
def clear (c : EnhancedLRUCache κ ν) : EnhancedLRUCache κ ν :=
  { c with entries := [], pinnedKeys := [] }

/-- `EnhancedLRUCache::pin`: requires residency. -/
def pin (c : EnhancedLRUCache κ ν) (k : κ) : EnhancedLRUCache κ ν :=
  if (alookup c.entries k).isSome then
    if k ∈ c.pinnedKeys then c else { c with pinnedKeys := k :: c.pinnedKeys }
  else c

/-- `EnhancedLRUCache::unpin`. -/
def unpin (c : EnhancedLRUCache κ ν) (k : κ) : EnhancedLRUCache κ ν :=
  { c with pinnedKeys := c.pinnedKeys.filter (fun x => decide (x ≠ k)) }

/-- `EnhancedLRUCache::prefetch`: insert (evicting when full) or update;
counts `prefetchedItems`, never hits/misses. -/
def prefetch (c : EnhancedLRUCache κ ν) (k : κ) (v : ν) : Option (EnhancedLRUCache κ ν) :=
  match alookup c.entries k with
  | none =>
    if c.entries.length < c.maxCapacity then
      some { c with
        entries := (k, v) :: c.entries
        stats := { c.stats with prefetchedItems := c.stats.prefetchedItems + 1 } }
    else
      match c.evict with
      | none => none
      | some c2 =>
        some { c2 with
          entries := (k, v) :: c2.entries
          stats := { c2.stats with prefetchedItems := c2.stats.prefetchedItems + 1 } }
  | some _ =>
    some { c with
      entries := (k, v) :: aremove c.entries k
      stats := { c.stats with prefetchedItems := c.stats.prefetchedItems + 1 } }

/-- `EnhancedLRUCache::resetStatistics`. -/
def resetStatistics (c : EnhancedLRUCache κ ν) : EnhancedLRUCache κ ν :=
  { c with stats := {} }

/-- One user-level operation; `none` when the operation never returns
(a divergent eviction loop inside `put`/`prefetch`). -/
def step (c : EnhancedLRUCache κ ν) : CacheOp κ ν → Option (EnhancedLRUCache κ ν)
  | .put k v => c.put k v
  | .get k => some (c.get k).2
  | .remove k => some (c.remove k)
  | .clear => some c.clear
  | .pin k => some (c.pin k)
  | .unpin k => some (c.unpin k)
  | .prefetch k v => c.prefetch k v
  | .resetStatistics => some c.resetStatistics

/-- Run a sequence of operations from the freshly constructed cache. -/
def run (cap : Nat) (ops : List (CacheOp κ ν)) : Option (EnhancedLRUCache κ ν) :=
  ops.foldl (fun acc op => acc.bind (fun c => c.step op)) (some { maxCapacity := cap })

end EnhancedLRUCache

/-! ## LFU policy cache (`LFUCache`, `enhanced_cache.tpp` lines 191-394)

`frequencies` is a `std::unordered_map<size_t, std::list<Key>>` in the
source.  Its *iteration order is unspecified*: the eviction loop starts at
`frequencies.find(minFrequency)` and then advances the iterator through
whatever order the hash table happens to store the remaining buckets in.
The model therefore keeps `frequencies` as a list of buckets *in iteration
order*; newly created buckets are appended at the end, standing for an
arbitrary unspecified position.  Theorems about eviction quantify over the
bucket order (or exhibit a concrete order the container is permitted to
produce), never assuming ascending frequencies. -/

structure LFUCache (κ ν : Type) where
  maxCapacity : Nat
  minFrequency : Nat := 1
  frequencies : List (Nat × List κ) := []
  keyToEntry : List (κ × ν) := []
  keyToFreq : List (κ × Nat) := []
  pinnedKeys : List κ := []
  stats : CacheStatistics := {}
deriving DecidableEq, Repr

namespace LFUCache

variable {κ ν : Type} [DecidableEq κ]

/-- `frequencies[f]` via `operator[]`: materialize an empty bucket when the
frequency is absent (the source's `operator[]` default-constructs it). -/
def faccess (freqs : List (Nat × List κ)) (f : Nat) : List (Nat × List κ) :=
  if (alookup freqs f).isSome then freqs else freqs ++ [(f, [])]

/-- Apply an in-place edit to bucket `f`, materializing it first. -/
def fmodify (freqs : List (Nat × List κ)) (f : Nat) (g : List κ → List κ) :
    List (Nat × List κ) :=
  aset (faccess freqs f) f (g ((alookup freqs f).getD []))

/-- `frequencies.find(f)` followed by splitting the iteration sequence at the
found bucket: `some (before, bucket, after)`, or `none` when `find` returns
`end()` (in which case the eviction loop never runs). -/
def fsplit (f : Nat) : List (Nat × List κ) → Option (List (Nat × List κ) × List κ × List (Nat × List κ))
  | [] => none
  | (g, ks) :: rest =>
    if g = f then some ([], ks, rest)
    else
      match fsplit f rest with
      | some (pre, b, post) => some ((g, ks) :: pre, b, post)
      | none => none

/-- Scan one bucket for its first (earliest-inserted) unpinned key, returning
the key and the bucket with that key removed. -/
def firstUnpinned (pinned : List κ) : List κ → Option (κ × List κ)
  | [] => none
  | k :: ks =>
    if k ∈ pinned then
      match firstUnpinned pinned ks with
      | some (r, ks2) => some (r, k :: ks2)
      | none => none
    else some (k, ks)

/-- The double loop of `LFUCache::evict`: walk the buckets in iteration
order, inside each bucket walk the keys in insertion order, stop at the
first unpinned key.  Returns the chosen bucket's frequency, the key, and the
scanned bucket sequence with the key removed. -/
def scanBuckets (pinned : List κ) : List (Nat × List κ) → Option (Nat × κ × List (Nat × List κ))
  | [] => none
  | (f, ks) :: rest =>
    match firstUnpinned pinned ks with
    | some (k, ks2) => some (f, k, (f, ks2) :: rest)
    | none =>
      match scanBuckets pinned rest with
      | some (f2, k, rest2) => some (f2, k, (f, ks) :: rest2)
      | none => none

/-- `LFUCache::evict` (lines 356-378): start at `find(minFrequency)`, walk
the iteration order, evict the first unpinned key found; bump
`minFrequency` when the bucket the key was removed from is now empty and is
the `minFrequency` bucket.  When `find(minFrequency)` is `end()` or every
scanned key is pinned, nothing is evicted. -/
def evict (c : LFUCache κ ν) : LFUCache κ ν × Option κ :=
  match fsplit c.minFrequency c.frequencies with
  | none => (c, none)
  | some (pre, bucket, post) =>
    match scanBuckets c.pinnedKeys ((c.minFrequency, bucket) :: post) with
    | none => (c, none)
    | some (f, k, scanned) =>
      let minF' :=
        if alookup scanned f = some ([] : List κ) ∧ f = c.minFrequency then
          c.minFrequency + 1
        else c.minFrequency
      ({ c with
         frequencies := pre ++ scanned
         keyToEntry := aremove c.keyToEntry k
         keyToFreq := aremove c.keyToFreq k
         minFrequency := minF'
         stats := { c.stats with evictions := c.stats.evictions + 1 } }, some k)

/-- `LFUCache::updateFrequency` (lines 380-394). -/
def updateFrequency (c : LFUCache κ ν) (k : κ) : LFUCache κ ν :=
  let oldFreq := (alookup c.keyToFreq k).getD 0
  let newFreq := oldFreq + 1
  let freqs1 := fmodify c.frequencies oldFreq (fun ks => ks.filter (fun x => decide (x ≠ k)))
  let minF' :=
    if alookup freqs1 oldFreq = some ([] : List κ) ∧ oldFreq = c.minFrequency then
      c.minFrequency + 1
    else c.minFrequency
  { c with
    frequencies := fmodify freqs1 newFreq (fun ks => ks ++ [k])
    keyToFreq := asetD c.keyToFreq k newFreq
    minFrequency := minF' }

/-- `LFUCache::put` (lines 196-220); note the explicit
`if (maxCapacity == 0) return;` guard, which only this policy has. -/
def put (c : LFUCache κ ν) (k : κ) (v : ν) : LFUCache κ ν :=
  if c.maxCapacity = 0 then c
  else
    match alookup c.keyToEntry k with
    | some _ => updateFrequency { c with keyToEntry := aset c.keyToEntry k v } k
    | none =>
      let c1 := if c.keyToEntry.length ≥ c.maxCapacity then (evict c).1 else c
      { c1 with
        keyToEntry := asetD c1.keyToEntry k v
        keyToFreq := asetD c1.keyToFreq k 1
        frequencies := fmodify c1.frequencies 1 (fun ks => ks ++ [k])
        minFrequency := 1 }

/-- `LFUCache::get`. -/
def get (c : LFUCache κ ν) (k : κ) : Option ν × LFUCache κ ν :=
  match alookup c.keyToEntry k with
  | none =>
    (none, { c with stats := CacheStatistics.updateHitRate { c.stats with misses := c.stats.misses + 1 } })
  | some v =>
    let c1 := updateFrequency c k
    (some v, { c1 with stats := CacheStatistics.updateHitRate { c1.stats with hits := c1.stats.hits + 1 } })

/-- `LFUCache::remove`. -/
def remove (c : LFUCache κ ν) (k : κ) : LFUCache κ ν :=
  match alookup c.keyToEntry k with
  | none => c
  | some _ =>
    let freq := (alookup c.keyToFreq k).getD 0
    let freqs1 := fmodify c.frequencies freq (fun ks => ks.filter (fun x => decide (x ≠ k)))
    let minF' :=
      if alookup freqs1 freq = some ([] : List κ) ∧ freq = c.minFrequency then
        c.minFrequency + 1
      else c.minFrequency
    { c with
      frequencies := freqs1
      minFrequency := minF'
      keyToEntry := aremove c.keyToEntry k
      keyToFreq := aremove c.keyToFreq k
      pinnedKeys := c.pinnedKeys.filter (fun x => decide (x ≠ k)) }

/-- `LFUCache::clear`. -/
def clear (c : LFUCache κ ν) : LFUCache κ ν :=
  { c with
    keyToEntry := [], keyToFreq := [], frequencies := [], pinnedKeys := []
    minFrequency := 1 }

/-- `LFUCache::pin`. -/
def pin (c : LFUCache κ ν) (k : κ) : LFUCache κ ν :=
  if (alookup c.keyToEntry k).isSome then
    if k ∈ c.pinnedKeys then c else { c with pinnedKeys := k :: c.pinnedKeys }
  else c

/-- `LFUCache::unpin`. -/
def unpin (c : LFUCache κ ν) (k : κ) : LFUCache κ ν :=
  { c with pinnedKeys := c.pinnedKeys.filter (fun x => decide (x ≠ k)) }

/-- `LFUCache::prefetch`; unlike `put` it has *no* zero-capacity guard. -/
def prefetch (c : LFUCache κ ν) (k : κ) (v : ν) : LFUCache κ ν :=
  match alookup c.keyToEntry k with
  | none =>
    let c1 := if c.keyToEntry.length ≥ c.maxCapacity then (evict c).1 else c
    { c1 with
      keyToEntry := asetD c1.keyToEntry k v
      keyToFreq := asetD c1.keyToFreq k 1
      frequencies := fmodify c1.frequencies 1 (fun ks => ks ++ [k])
      minFrequency := 1
      stats := { c1.stats with prefetchedItems := c1.stats.prefetchedItems + 1 } }
  | some _ =>
    { c with
      keyToEntry := aset c.keyToEntry k v
      stats := { c.stats with prefetchedItems := c.stats.prefetchedItems + 1 } }

/-- `LFUCache::resetStatistics`. -/
def resetStatistics (c : LFUCache κ ν) : LFUCache κ ν :=
  { c with stats := {} }

/-- One user-level operation. -/
def step (c : LFUCache κ ν) : CacheOp κ ν → LFUCache κ ν
  | .put k v => c.put k v
  | .get k => (c.get k).2
  | .remove k => c.remove k
  | .clear => c.clear
  | .pin k => c.pin k
  | .unpin k => c.unpin k
  | .prefetch k v => c.prefetch k v
  | .resetStatistics => c.resetStatistics

/-- Run a sequence of operations from the freshly constructed cache. -/
def run (cap : Nat) (ops : List (CacheOp κ ν)) : LFUCache κ ν :=
  ops.foldl step { maxCapacity := cap }

end LFUCache

/-! ## FIFO policy cache (`FIFOCache`, `enhanced_cache.tpp` lines 396-558)

`insertionOrder` is the queue, front at the head of the list.  `remove`
deliberately leaves the key in the queue (the source comment: stale keys are
skipped at eviction time). -/

structure FIFOCache (κ ν : Type) where
  maxCapacity : Nat
  entries : List (κ × ν) := []
  insertionOrder : List κ := []
  pinnedKeys : List κ := []
  stats : CacheStatistics := {}
deriving DecidableEq, Repr

namespace FIFOCache

variable {κ ν : Type} [DecidableEq κ]

/-- The pop loop of `FIFOCache::evict` (lines 544-558): pop the queue until
a key is found that still exists and is unpinned; stale and pinned pops are
discarded and never re-enter the queue. -/
def evictGo (entries : List (κ × ν)) (pinned : List κ) :
    List κ → List κ × Option κ
  | [] => ([], none)
  | k :: rest =>
    if (alookup entries k).isSome ∧ k ∉ pinned then (rest, some k)
    else evictGo entries pinned rest

/-- `FIFOCache::evict`. -/
def evict (c : FIFOCache κ ν) : FIFOCache κ ν × Option κ :=
  match evictGo c.entries c.pinnedKeys c.insertionOrder with
  | (q, none) => ({ c with insertionOrder := q }, none)
  | (q, some k) =>
    ({ c with
       insertionOrder := q
       entries := aremove c.entries k
       stats := { c.stats with evictions := c.stats.evictions + 1 } }, some k)

/-- `FIFOCache::put` (lines 401-420): updating an existing key does not
reorder; a new key is pushed at the back of the queue, evicting first when
at capacity. -/
def put (c : FIFOCache κ ν) (k : κ) (v : ν) : FIFOCache κ ν :=
  match alookup c.entries k with
  | some _ => { c with entries := aset c.entries k v }
  | none =>
    let c1 := if c.entries.length ≥ c.maxCapacity then (evict c).1 else c
    { c1 with
      entries := asetD c1.entries k v
      insertionOrder := c1.insertionOrder ++ [k] }

/-- `FIFOCache::get`: no reorder; hit/miss statistics as in the other
policies. -/
def get (c : FIFOCache κ ν) (k : κ) : Option ν × FIFOCache κ ν :=
  match alookup c.entries k with
  | none =>
    (none, { c with stats := CacheStatistics.updateHitRate { c.stats with misses := c.stats.misses + 1 } })
  | some v =>
    (some v, { c with stats := CacheStatistics.updateHitRate { c.stats with hits := c.stats.hits + 1 } })

/-- `FIFOCache::remove`: the queue is left untouched. -/
def remove (c : FIFOCache κ ν) (k : κ) : FIFOCache κ ν :=
  match alookup c.entries k with
  | none => c
  | some _ =>
    { c with
      entries := aremove c.entries k
      pinnedKeys := c.pinnedKeys.filter (fun x => decide (x ≠ k)) }

/-- `FIFOCache::clear`. -/
def clear (c : FIFOCache κ ν) : FIFOCache κ ν :=
  { c with entries := [], pinnedKeys := [], insertionOrder := [] }

/-- `FIFOCache::pin`. -/
def pin (c : FIFOCache κ ν) (k : κ) : FIFOCache κ ν :=
  if (alookup c.entries k).isSome then
    if k ∈ c.pinnedKeys then c else { c with pinnedKeys := k :: c.pinnedKeys }
  else c

/-- `FIFOCache::unpin`. -/
def unpin (c : FIFOCache κ ν) (k : κ) : FIFOCache κ ν :=
  { c with pinnedKeys := c.pinnedKeys.filter (fun x => decide (x ≠ k)) }

/-- `FIFOCache::prefetch`. -/
def prefetch (c : FIFOCache κ ν) (k : κ) (v : ν) : FIFOCache κ ν :=
  match alookup c.entries k with
  | none =>
    let c1 := if c.entries.length ≥ c.maxCapacity then (evict c).1 else c
    { c1 with
      entries := asetD c1.entries k v
      insertionOrder := c1.insertionOrder ++ [k]
      stats := { c1.stats with prefetchedItems := c1.stats.prefetchedItems + 1 } }
  | some _ =>
    { c with
      entries := aset c.entries k v
      stats := { c.stats with prefetchedItems := c.stats.prefetchedItems + 1 } }

/-- `FIFOCache::resetStatistics`. -/
def resetStatistics (c : FIFOCache κ ν) : FIFOCache κ ν :=
  { c with stats := {} }

/-- One user-level operation. -/
def step (c : FIFOCache κ ν) : CacheOp κ ν → FIFOCache κ ν
  | .put k v => c.put k v
  | .get k => (c.get k).2
  | .remove k => c.remove k
  | .clear => c.clear
  | .pin k => c.pin k
  | .unpin k => c.unpin k
  | .prefetch k v => c.prefetch k v
  | .resetStatistics => c.resetStatistics

/-- Run a sequence of operations from the freshly constructed cache. -/
def run (cap : Nat) (ops : List (CacheOp κ ν)) : FIFOCache κ ν :=
  ops.foldl step { maxCapacity := cap }

end FIFOCache

/-! ## LIFO policy cache (`LIFOCache`, `enhanced_cache.tpp` lines 560-774)

`insertionOrder` is the stack, top at the head of the list.  The
stack-rebuild dance in `put`/`remove` (pop everything into a scratch stack
skipping the key, then push everything back) amounts to erasing every
occurrence of the key while keeping the relative order of the rest; the
eviction loop saves popped-but-kept keys and restores them afterwards,
which removes exactly the topmost resident unpinned key. -/

structure LIFOCache (κ ν : Type) where
  maxCapacity : Nat
  entries : List (κ × ν) := []
  insertionOrder : List κ := []
  pinnedKeys : List κ := []
  stats : CacheStatistics := {}
deriving DecidableEq, Repr

namespace LIFOCache

variable {κ ν : Type} [DecidableEq κ]

/-- The pop-and-restore loop of `LIFOCache::evict` (lines 739-774): find the
topmost key that exists and is unpinned, remove it from the stack, keep all
keys above it in their original order. -/
def evictGo (entries : List (κ × ν)) (pinned : List κ) :
    List κ → List κ × Option κ
  | [] => ([], none)
  | k :: rest =>
    if (alookup entries k).isSome ∧ k ∉ pinned then (rest, some k)
    else
      match evictGo entries pinned rest with
      | (rest2, r) => (k :: rest2, r)

/-- `LIFOCache::evict`. -/
def evict (c : LIFOCache κ ν) : LIFOCache κ ν × Option κ :=
  match evictGo c.entries c.pinnedKeys c.insertionOrder with
  | (q, none) => ({ c with insertionOrder := q }, none)
  | (q, some k) =>
    ({ c with
       insertionOrder := q
       entries := aremove c.entries k
       stats := { c.stats with evictions := c.stats.evictions + 1 } }, some k)

/-- `LIFOCache::put` (lines 565-602): updating an existing key moves it to
the top of the stack; a new key is pushed on top, evicting first when at
capacity. -/
def put (c : LIFOCache κ ν) (k : κ) (v : ν) : LIFOCache κ ν :=
  match alookup c.entries k with
  | some _ =>
    { c with
      entries := aset c.entries k v
      insertionOrder := k :: c.insertionOrder.filter (fun x => decide (x ≠ k)) }
  | none =>
    let c1 := if c.entries.length ≥ c.maxCapacity then (evict c).1 else c
    { c1 with
      entries := asetD c1.entries k v
      insertionOrder := k :: c1.insertionOrder }

/-- `LIFOCache::get`: no reorder. -/
def get (c : LIFOCache κ ν) (k : κ) : Option ν × LIFOCache κ ν :=
  match alookup c.entries k with
  | none =>
    (none, { c with stats := CacheStatistics.updateHitRate { c.stats with misses := c.stats.misses + 1 } })
  | some v =>
    (some v, { c with stats := CacheStatistics.updateHitRate { c.stats with hits := c.stats.hits + 1 } })

/-- `LIFOCache::remove`: erase the key from map, pinned set and stack. -/
def remove (c : LIFOCache κ ν) (k : κ) : LIFOCache κ ν :=
  match alookup c.entries k with
  | none => c
  | some _ =>
    { c with
      entries := aremove c.entries k
      pinnedKeys := c.pinnedKeys.filter (fun x => decide (x ≠ k))
      insertionOrder := c.insertionOrder.filter (fun x => decide (x ≠ k)) }

/-- `LIFOCache::clear`. -/
def clear (c : LIFOCache κ ν) : LIFOCache κ ν :=
  { c with entries := [], pinnedKeys := [], insertionOrder := [] }

/-- `LIFOCache::pin`. -/
def pin (c : LIFOCache κ ν) (k : κ) : LIFOCache κ ν :=
  if (alookup c.entries k).isSome then
    if k ∈ c.pinnedKeys then c else { c with pinnedKeys := k :: c.pinnedKeys }
  else c

/-- `LIFOCache::unpin`. -/
def unpin (c : LIFOCache κ ν) (k : κ) : LIFOCache κ ν :=
  { c with pinnedKeys := c.pinnedKeys.filter (fun x => decide (x ≠ k)) }

/-- `LIFOCache::prefetch`: a new key goes on top of the stack; an existing
key is updated in place without reordering. -/
def prefetch (c : LIFOCache κ ν) (k : κ) (v : ν) : LIFOCache κ ν :=
  match alookup c.entries k with
  | none =>
    let c1 := if c.entries.length ≥ c.maxCapacity then (evict c).1 else c
    { c1 with
      entries := asetD c1.entries k v
      insertionOrder := k :: c1.insertionOrder
      stats := { c1.stats with prefetchedItems := c1.stats.prefetchedItems + 1 } }
  | some _ =>
    { c with
      entries := aset c.entries k v
      stats := { c.stats with prefetchedItems := c.stats.prefetchedItems + 1 } }

/-- `LIFOCache::resetStatistics`. -/
def resetStatistics (c : LIFOCache κ ν) : LIFOCache κ ν :=
  { c with stats := {} }

/-- One user-level operation. -/
def step (c : LIFOCache κ ν) : CacheOp κ ν → LIFOCache κ ν
  | .put k v => c.put k v
  | .get k => (c.get k).2
  | .remove k => c.remove k
  | .clear => c.clear
  | .pin k => c.pin k
  | .unpin k => c.unpin k
  | .prefetch k v => c.prefetch k v
  | .resetStatistics => c.resetStatistics

/-- Run a sequence of operations from the freshly constructed cache. -/
def run (cap : Nat) (ops : List (CacheOp κ ν)) : LIFOCache κ ν :=
  ops.foldl step { maxCapacity := cap }

end LIFOCache

/-! ## The `find` pattern matcher (`FileSystem::matchesPattern`,
`src/fs/src/filesystem.cpp` lines 539-583)

Strings are embedded as `List Char`.  The wildcard branch is the source's
greedy matcher with single-star backtracking, written as a loop over the
positions `(patternPos, filenamePos, starIdx, match)`; the loop is embedded
with a fuel argument together with a proof (below) that the chosen fuel
bound is never exhausted. -/

/-- Does the pattern occur as a contiguous substring?  This is
`filename.find(pattern) != npos`, the wildcard-free branch. -/
def startsWithL : List Char → List Char → Bool
  | [], _ => true
  | _ :: _, [] => false
  | c :: cs, d :: ds => c == d && startsWithL cs ds

def substrCheck (pat : List Char) : List Char → Bool
  | [] => startsWithL pat []
  | d :: rest => startsWithL pat (d :: rest) || substrCheck pat rest

/-- The trailing `while (pattern[patternPos] == '*') patternPos++` followed
by `patternPos == pattern.length()`: true exactly when only stars remain. -/
def allStarsFrom : List Char → Bool
  | [] => true
  | c :: rest => c == '*' && allStarsFrom rest

/-- One iteration scheme of the greedy wildcard loop.  Arguments:
fuel, `patternPos`, `filenamePos`, `starIdx` (`none` = `npos`), `match`.
`none` would mean the fuel ran out; `greedyFuel` below is proved sufficient. -/
def gloop (P F : List Char) : Nat → Nat → Nat → Option Nat → Nat → Option Bool
  | 0, _, _, _, _ => none
  | fuel + 1, p, f, star, m =>
    if hf : f < F.length then
      let d := F.get ⟨f, hf⟩
      match P.get? p with
      | some c =>
        if c == d || c == '?' then gloop P F fuel (p + 1) (f + 1) star m
        else if c == '*' then gloop P F fuel (p + 1) f (some p) f
        else
          match star with
          | some s => gloop P F fuel (s + 1) (m + 1) (some s) (m + 1)
          | none => some false
      | none =>
        match star with
        | some s => gloop P F fuel (s + 1) (m + 1) (some s) (m + 1)
        | none => some false
    else
      some (allStarsFrom (P.drop p))

/-- Fuel bound for the greedy loop, proved sufficient below. -/
def greedyFuel (P F : List Char) : Nat :=
  (F.length + 1) * (P.length + F.length + 2)

/-- `FileSystem::matchesPattern(filename, pattern)`: glob matching when the
pattern contains `*` or `?`, substring containment otherwise. -/
def matchesPattern (filename pattern : List Char) : Bool :=
  if pattern.contains '*' || pattern.contains '?' then
    (gloop pattern filename (greedyFuel pattern filename) 0 0 none 0).getD false
  else
    substrCheck pattern filename

/-- Glob semantics as the specification words it: `?` matches exactly one
character, `*` matches zero or more characters, the whole filename must be
covered.  (This definition follows the spec, to be compared with the
source-derived `matchesPattern`.) -/
def anySuffix (g : List Char → Bool) : List Char → Bool
  | [] => g []
  | d :: rest => g (d :: rest) || anySuffix g rest

def glob : List Char → List Char → Bool
  | [], fs => fs.isEmpty
  | p :: ps, fs =>
    if p = '*' then anySuffix (glob ps) fs
    else
      match fs with
      | [] => false
      | d :: fs2 => (p == '?' || p == d) && glob ps fs2

/-! ## Authentication (`src/common/src/auth.cpp`)

Password hashes and the persistence helpers play no role in any claim; the
model keeps the current session and the admin flag per user.  As in the
source, "logged out" is represented by an empty current-user string. -/

structure AuthManager where
  currentUser : String := ""
  users : List (String × Bool) := []  -- username ↦ isAdmin
deriving DecidableEq, Repr

namespace AuthManager

/-- `AuthManager::isLoggedIn`. -/
def isLoggedIn (a : AuthManager) : Bool := a.currentUser ≠ ""

/-- `AuthManager::isAdmin`. -/
def isAdmin (a : AuthManager) (u : String) : Bool := (alookup a.users u).getD false

end AuthManager

/-! ## Filesystem coordinator (`src/fs/src/filesystem.cpp`)

The host filesystem under `rootPath` is modelled as a map from the
coordinator-relative path to a node; host-FS `stat`/`remove`/`_mkdir` become
operations on that map.  `getMetadata` builds its record from `stat`, so its
`owner` field is always the default empty string, exactly as in the source
(the `FileMetadata::owner` member is only populated in `fileMetadataMap`,
which `getMetadata` never consults).  Host permission bits and timestamps
are not claim-relevant and are not tracked.  The read cache is the
`CacheManager<std::string, std::string>` of the source, constructed with
capacity `CACHE_CAPACITY = 1000` and the default LRU policy. -/

instance {ε α : Type} [DecidableEq ε] [DecidableEq α] : DecidableEq (Except ε α) := fun x y =>
  match x, y with
  | .ok a, .ok b => decidable_of_iff (a = b) (by simp)
  | .error a, .error b => decidable_of_iff (a = b) (by simp)
  | .ok _, .error _ => isFalse (fun h => Except.noConfusion h)
  | .error _, .ok _ => isFalse (fun h => Except.noConfusion h)

inductive DiskNode where
  | file (content : String)
  | dir
deriving DecidableEq, Repr

/-- The errors of §7 of the specification, as thrown by the coordinator:
`FSException("Authentication required …")`, `FSException("Permission denied …")`,
`FileNotFoundException`, and the remaining host-FS/`runtime_error` failures. -/
inductive FSError where
  | authRequired
  | permissionDenied
  | notFound
  | hostFS
deriving DecidableEq, Repr

structure FileMetadata where
  name : String := ""
  owner : String := ""
  permissions : Nat := 420  -- 0644, the default member initializer
  size : Nat := 0
  isDirectory : Bool := false
deriving DecidableEq, Repr

structure PerformanceStats where
  cacheHits : Nat := 0
  cacheMisses : Nat := 0
  totalReads : Nat := 0
  totalWrites : Nat := 0
  totalFileOperations : Nat := 0
deriving DecidableEq, Repr

def CACHE_CAPACITY : Nat := 1000

structure FileSystem where
  auth : Option AuthManager := none
  disk : List (String × DiskNode) := []
  fileMetadataMap : List (String × FileMetadata) := []
  enhancedCache : EnhancedLRUCache String String := { maxCapacity := CACHE_CAPACITY }
  stats : PerformanceStats := {}
deriving DecidableEq, Repr

namespace FileSystem

/-- `FileSystem::exists`: `stat` succeeds exactly on tracked paths. -/
def pathExists (s : FileSystem) (p : String) : Bool := (alookup s.disk p).isSome

/-- The guard `authManager && !authManager->isLoggedIn()` shared by
`createFile`/`writeFile`/`readFile`/`deleteFile`; `true` means the
operation throws the auth-required error. -/
def authDenied (s : FileSystem) : Bool :=
  match s.auth with
  | some a => !a.isLoggedIn
  | none => false

/-- `FileSystem::getMetadata`: `stat`-derived record; the `owner` field is
left at its default (empty) value. -/
def getMetadata (s : FileSystem) (p : String) : Except FSError FileMetadata :=
  match alookup s.disk p with
  | none => .error .notFound
  | some (.file c) => .ok { name := p, owner := "", size := c.length, isDirectory := false }
  | some .dir => .ok { name := p, owner := "", size := 0, isDirectory := true }

/-- `FileSystem::getFileInfo` delegates to `getMetadata`. -/
def getFileInfo (s : FileSystem) (p : String) : Except FSError FileMetadata :=
  getMetadata s p

/-- The owner-or-admin check shared by `writeFile`/`readFile`/`deleteFile`
when an auth manager is present: `some e` means the operation throws `e`.
Because `getFileInfo` yields an empty `owner`, a logged-in caller passes
only when it is an administrator. -/
def permDenied (s : FileSystem) (p : String) : Option FSError :=
  match s.auth with
  | none => none
  | some a =>
    match getFileInfo s p with
    | .error e => some e
    | .ok meta =>
      if meta.owner ≠ a.currentUser ∧ ¬a.isAdmin a.currentUser then some .permissionDenied
      else none

/-- `FileSystem::createFile`: create (or truncate) the host file, then
record metadata owned by the current user. -/
def createFile (s : FileSystem) (p : String) : Except FSError Bool × FileSystem :=
  if authDenied s then (.error .authRequired, s)
  else
    match alookup s.disk p with
    | some .dir => (.error .hostFS, s)  -- `ofstream` cannot open a directory
    | _ =>
      let owner := match s.auth with
        | some a => a.currentUser
        | none => "unknown"
      (.ok true,
       { s with
         disk := asetD s.disk p (.file "")
         fileMetadataMap :=
           asetD s.fileMetadataMap p
             { name := p, owner := owner, permissions := 420, size := 0, isDirectory := false } })

/-- `FileSystem::writeFile` (lines 99-143).  `none` would mark a divergent
eviction loop inside the cache `put`. -/
def writeFile (s : FileSystem) (p data : String) :
    Option (Except FSError Bool × FileSystem) :=
  if authDenied s then some (.error .authRequired, s)
  else
    match permDenied s p with
    | some e => some (.error e, s)
    | none =>
      if ¬pathExists s p then some (.error .notFound, s)
      else
        match alookup s.disk p with
        | some (.file _) =>
          match s.enhancedCache.put p data with
          | none => none
          | some cache2 =>
            let oldMeta := (alookup s.fileMetadataMap p).getD {}
            some (.ok true,
              { s with
                disk := aset s.disk p (.file data)
                enhancedCache := cache2
                stats := { s.stats with
                  totalWrites := s.stats.totalWrites + 1
                  totalFileOperations := s.stats.totalFileOperations + 1 }
                fileMetadataMap :=
                  asetD s.fileMetadataMap p { oldMeta with size := data.length } })
        | _ => some (.error .hostFS, s)

/-- `FileSystem::readFile` (lines 145-201): auth, then owner-or-admin, then
the cache, then the host FS on a miss (inserting the loaded content). -/
def readFile (s : FileSystem) (p : String) :
    Option (Except FSError String × FileSystem) :=
  if authDenied s then some (.error .authRequired, s)
  else
    match permDenied s p with
    | some e => some (.error e, s)
    | none =>
      match (s.enhancedCache.get p : Option String × EnhancedLRUCache String String) with
      | (some v, cache1) =>
        some (.ok v,
          { s with
            enhancedCache := cache1
            stats := { s.stats with
              cacheHits := s.stats.cacheHits + 1
              totalReads := s.stats.totalReads + 1
              totalFileOperations := s.stats.totalFileOperations + 1 } })
      | (none, cache1) =>
        let s1 := { s with
          enhancedCache := cache1
          stats := { s.stats with
            cacheMisses := s.stats.cacheMisses + 1
            totalReads := s.stats.totalReads + 1
            totalFileOperations := s.stats.totalFileOperations + 1 } }
        match alookup s.disk p with
        | none => some (.error .notFound, s1)
        | some .dir => some (.error .hostFS, s1)
        | some (.file data) =>
          match cache1.put p data with
          | none => none
          | some cache2 => some (.ok data, { s1 with enhancedCache := cache2 })

/-- `FileSystem::deleteFile` (lines 203-227): after the checks it clears the
*entire* read cache, erases the metadata entry, and only then removes the
host file (`remove == 0`; removing a directory with `remove` fails and the
call returns `false` with cache and metadata already updated). -/
def deleteFile (s : FileSystem) (p : String) : Except FSError Bool × FileSystem :=
  if authDenied s then (.error .authRequired, s)
  else
    match permDenied s p with
    | some e => (.error e, s)
    | none =>
      if ¬pathExists s p then (.error .notFound, s)
      else
        let s1 := { s with
          enhancedCache := s.enhancedCache.clear
          fileMetadataMap := aremove s.fileMetadataMap p }
        match alookup s.disk p with
        | some (.file _) => (.ok true, { s1 with disk := aremove s1.disk p })
        | _ => (.ok false, s1)

/-- `FileSystem::createDirectory` (lines 229-237): no authentication check;
`_mkdir` fails (returning `false`) when the path already exists. -/
def createDirectory (s : FileSystem) (p : String) : Except FSError Bool × FileSystem :=
  if pathExists s p then (.ok false, s)
  else (.ok true, { s with disk := (p, .dir) :: s.disk })

/-- Name of `q` relative to directory `p` when `q` is a direct child. -/
def childNameOf (p q : String) : Option String :=
  if startsWithL (p.data ++ ['/']) q.data then
    let rest := q.data.drop (p.data.length + 1)
    if rest.contains '/' then none else some (String.mk rest)
  else none

/-- `FileSystem::listDirectory` (lines 239-265): no authentication check;
`FileNotFound` when the path does not exist, otherwise the directory walk
(modelled as filtering the tracked paths for direct children). -/
def listDirectory (s : FileSystem) (p : String) :
    Except FSError (List String) × FileSystem :=
  if ¬pathExists s p then (.error .notFound, s)
  else (.ok (s.disk.filterMap (fun e => childNameOf p e.1)), s)

/-- `FileSystem::setPermissions` (lines 292-310): no authentication check;
`FileNotFound` when the path does not exist, otherwise update the metadata
table entry (created on demand by `operator[]`). -/
def setPermissions (s : FileSystem) (p : String) (permissions : Nat) :
    Except FSError Unit × FileSystem :=
  if ¬pathExists s p then (.error .notFound, s)
  else
    let oldMeta := (alookup s.fileMetadataMap p).getD {}
    (.ok (),
     { s with fileMetadataMap := asetD s.fileMetadataMap p { oldMeta with permissions := permissions } })

/-- `FileSystem::findFiles` (lines 585-609): list the directory and keep the
names accepted by `matchesPattern`. -/
def findFiles (s : FileSystem) (pattern directory : String) :
    Except FSError (List String) × FileSystem :=
  match listDirectory s directory with
  | (.error e, s2) => (.error e, s2)
  | (.ok files, s2) =>
    (.ok ((files.filter (fun f => matchesPattern f.data pattern.data)).map
      (fun f => if directory = "." then f else directory ++ "/" ++ f)), s2)

end FileSystem

/-! # Claims

Each claim of the specification receives one theorem below (plus, where the
claim fails on the source, a closed counterexample, and, where the theorem
carries hypotheses, a closed witness). -/

/-! ## C1 — compression round-trip -/

/-- Claim C1, counterexample: the claim asserts
`decompress(compress(x)) == x` for *every* byte sequence, but
`CompressionHeader::originalSize` is a `uint32_t`
(`static_cast<uint32_t>(data.size())`), so for the 2^32-byte input
`replicate (2^32) 0` the header records original size `0`, the rebuilt body
has length `2^32 ≠ 0`, and `decompress` throws "Decompressed size mismatch"
instead of returning the input. -/
theorem C1_counterexample :
    FileCompression.decompress (FileCompression.compress (List.replicate (2 ^ 32) 0)) =
      .error DecompressError.sizeMismatch ∧
    FileCompression.decompress (FileCompression.compress (List.replicate (2 ^ 32) 0)) ≠
      .ok (List.replicate (2 ^ 32) 0) := by
  have hmain :
      FileCompression.decompress (FileCompression.compress (List.replicate (2 ^ 32) 0)) =
        .error DecompressError.sizeMismatch := by
    simp only [FileCompression.compress, FileCompression.decompress, rle_roundtrip,
      List.length_replicate]
    norm_num
  refine ⟨hmain, ?_⟩
  rw [hmain]
  intro hc
  exact Except.noConfusion hc

/-- Claim C1 (amended): for every byte sequence of fewer than `2^32` bytes —
in particular the empty sequence and sequences with runs longer than 255 —
decompressing the compressed frame returns the original sequence. -/
theorem C1_roundtrip_amended (data : List Nat) (h : data.length < 2 ^ 32) :
    FileCompression.decompress (FileCompression.compress data) = .ok data := by
  simp only [FileCompression.compress, FileCompression.decompress, rle_roundtrip,
    Nat.mod_eq_of_lt h]
  norm_num [COMPRESSION_MAGIC, COMPRESSION_VERSION]

/-- Claim C1, witness: a 300-byte run (longer than 255) round-trips. -/
theorem C1_witness :
    FileCompression.decompress (FileCompression.compress (List.replicate 300 5)) =
      .ok (List.replicate 300 5) :=
  C1_roundtrip_amended (List.replicate 300 5) (by rw [List.length_replicate]; norm_num)

/-! ## C8 — journal checkpoint -/

/-- Claim C8, counterexample: `Journal::checkpoint` only writes a log line.
After logging one operation (sequence number 1) and calling `checkpoint`,
the journal still contains the entry with sequence number `1 ≤ 1 =
currentSequence`, contradicting the claimed truncation. -/
theorem C8_counterexample :
    (Journal.checkpoint (Journal.logOperation Journal.init [3])).entries =
      [{ sequenceNumber := 1, metadata := [3] }] ∧
    (Journal.checkpoint (Journal.logOperation Journal.init [3])).currentSequence = 1 := by
  decide

/-- Claim C8 (amended): `checkpoint()` leaves the journal completely
unchanged — entries, sequence counter and transaction flag all persist; the
only operation that empties the log is `clear()`, and `clear()` also resets
the sequence counter to zero rather than preserving it. -/
theorem C8_checkpoint_amended :
    (∀ j : Journal, Journal.checkpoint j = j) ∧
    (∀ j : Journal,
      (Journal.clear j).entries = [] ∧ (Journal.clear j).currentSequence = 0 ∧
        (Journal.clear j).inTransaction = false) :=
  ⟨fun _ => rfl, fun _ => ⟨rfl, rfl, rfl⟩⟩

/-! ## Supporting lemmas about the cache models -/

theorem alookup_some_mem {κ ν : Type} [DecidableEq κ] :
    ∀ (l : List (κ × ν)) (k : κ) (v : ν), alookup l k = some v → (k, v) ∈ l := by
  intro l
  induction l with
  | nil => intro k v h; simp [alookup] at h
  | cons hd tl ih =>
    intro k v h
    obtain ⟨a, b⟩ := hd
    rw [alookup_cons] at h
    by_cases hk : k = a
    · subst hk
      rw [if_pos rfl] at h
      cases Option.some.inj h
      exact List.mem_cons_self _ _
    · rw [if_neg hk] at h
      exact List.mem_cons_of_mem _ (ih k v h)

theorem alookup_none_iff {κ ν : Type} [DecidableEq κ] :
    ∀ (l : List (κ × ν)) (k : κ), alookup l k = none ↔ ∀ v : ν, (k, v) ∉ l := by
  intro l
  induction l with
  | nil => intro k; simp [alookup]
  | cons hd tl ih =>
    intro k
    obtain ⟨a, b⟩ := hd
    rw [alookup_cons]
    by_cases hk : k = a
    · subst hk
      rw [if_pos rfl]
      constructor
      · intro h; cases h
      · intro h
        exact absurd (List.mem_cons_self (k, b) tl) (h b)
    · rw [if_neg hk, ih k]
      constructor
      · intro h v hv
        rcases List.mem_cons.mp hv with heq | hmem
        · exact hk (congrArg Prod.fst heq)
        · exact h v hmem
      · intro h v hv
        exact h v (List.mem_cons_of_mem _ hv)

theorem alookup_none_of_sub {κ ν : Type} [DecidableEq κ]
    (l l2 : List (κ × ν)) (k : κ) (hsub : ∀ e ∈ l2, e ∈ l)
    (h : alookup l k = none) : alookup l2 k = none := by
  rw [alookup_none_iff] at h ⊢
  intro v hv
  exact h v (hsub _ hv)

theorem aremove_sub {κ ν : Type} [DecidableEq κ] :
    ∀ (l : List (κ × ν)) (k : κ) (e : κ × ν), e ∈ aremove l k → e ∈ l := by
  intro l
  induction l with
  | nil => intro k e h; simp [aremove] at h
  | cons hd tl ih =>
    intro k e h
    obtain ⟨a, b⟩ := hd
    by_cases hk : k = a
    · simp only [aremove, hk, if_pos rfl] at h
      exact List.mem_cons_of_mem _ h
    · simp only [aremove, hk, if_false] at h
      rcases List.mem_cons.mp h with heq | hmem
      · exact heq ▸ List.mem_cons_self _ _
      · exact List.mem_cons_of_mem _ (ih k e hmem)

namespace EnhancedLRUCache

variable {κ ν : Type} [DecidableEq κ]

/-- Every entry surviving the eviction loop was present before it. -/
theorem evictGo_sub :
    ∀ (fuel : Nat) (l l2 : List (κ × ν)) (pinned : List κ) (b : Bool),
      evictGo pinned fuel l = some (l2, b) → ∀ e ∈ l2, e ∈ l := by
  intro fuel
  induction fuel with
  | zero =>
    intro l l2 pinned b h
    cases l with
    | nil => simp only [evictGo, Option.some.injEq, Prod.mk.injEq] at h; simp [← h.1]
    | cons x xs => simp [evictGo] at h
  | succ fuel ih =>
    intro l l2 pinned b h
    cases l with
    | nil => simp only [evictGo, Option.some.injEq, Prod.mk.injEq] at h; simp [← h.1]
    | cons x xs =>
      rw [evictGo] at h
      cases hlast : (x :: xs).getLast? with
      | none => simp at hlast
      | some e =>
        rw [hlast] at h
        have hmem_e : e ∈ x :: xs := List.mem_of_mem_getLast? hlast
        by_cases hpin : e.1 ∈ pinned
        · simp only [hpin, if_true] at h
          by_cases hlen : (e :: (x :: xs).dropLast).length ≤ 1
          · simp only [hlen, if_true, Option.some.injEq, Prod.mk.injEq] at h
            intro q hq
            rw [← h.1] at hq
            rcases List.mem_cons.mp hq with heq | hmem
            · exact heq ▸ hmem_e
            · exact List.mem_of_mem_dropLast hmem
          · simp only [hlen, if_false] at h
            intro q hq
            have := ih _ _ _ _ h q hq
            rcases List.mem_cons.mp this with heq | hmem
            · exact heq ▸ hmem_e
            · exact List.mem_of_mem_dropLast hmem
        · simp only [hpin, if_false, Option.some.injEq, Prod.mk.injEq] at h
          intro q hq
          rw [← h.1] at hq
          exact List.mem_of_mem_dropLast hq

/-- When at least two entries remain and every one of them is pinned, the
eviction loop of `EnhancedLRUCache::evict` rotates forever: no fuel bound
suffices. -/
theorem evictGo_allPinned :
    ∀ (fuel : Nat) (l : List (κ × ν)) (pinned : List κ),
      2 ≤ l.length → (∀ e ∈ l, e.1 ∈ pinned) →
      evictGo pinned fuel l = none := by
  intro fuel
  induction fuel with
  | zero =>
    intro l pinned hlen _
    cases l with
    | nil => simp at hlen
    | cons x xs => simp [evictGo]
  | succ fuel ih =>
    intro l pinned hlen hpin
    cases l with
    | nil => simp at hlen
    | cons x xs =>
      rw [evictGo]
      cases hlast : (x :: xs).getLast? with
      | none => simp at hlast
      | some e =>
        have hmem_e : e ∈ x :: xs := List.mem_of_mem_getLast? hlast
        have hep : e.1 ∈ pinned := hpin e hmem_e
        simp only [hep, if_true]
        have hrotlen : (e :: (x :: xs).dropLast).length = (x :: xs).length := by
          simp [List.length_dropLast]
        have hlen2 : ¬(e :: (x :: xs).dropLast).length ≤ 1 := by omega
        simp only [hlen2, if_false]
        exact ih _ pinned (by omega)
          (fun q hq => by
            rcases List.mem_cons.mp hq with heq | hmem
            · exact heq ▸ hep
            · exact hpin q (List.mem_of_mem_dropLast hmem))

end EnhancedLRUCache

/-! ## C4 — LRU eviction termination -/

/-- Claim C4 (code bug): LRU eviction does *not* terminate on every cache
state.  With two resident entries that are both pinned, every iteration of
the `while` loop in `EnhancedLRUCache::evict` rotates the pinned tail to the
front and re-enters; the `entries.size() <= 1` break never fires, so no fuel
bound ever suffices (first conjunct), and the state is reachable through the
public API — capacity 2; put 1; put 2; pin both; put 3 — whose model run
diverges (second conjunct).  The source's own comment (`// Prevent infinite
loop`) and the specification's bail-out sentence show intent; the guard only
covers a single-entry cache. -/
theorem C4_lru_evict_divergence :
    (∀ fuel : Nat,
      EnhancedLRUCache.evictGo (κ := Nat) (ν := Nat) [1, 2] fuel [(1, 10), (2, 20)] = none) ∧
    EnhancedLRUCache.run (κ := Nat) (ν := Nat) 2
      [.put 1 10, .put 2 20, .pin 1, .pin 2, .put 3 30] = none := by
  constructor
  · intro fuel
    apply EnhancedLRUCache.evictGo_allPinned
    · decide
    · decide
  · decide

/-! ## C5 — zero-capacity caches -/

/-- Claim C5, counterexample: only `LFUCache::put` carries the
`maxCapacity == 0` guard.  On a zero-capacity LRU cache, `put(1, 10)` calls
`evict()` (which removes nothing from the empty list) and then inserts
unconditionally, so the entry *is* resident and the following `get(1)` is a
hit — not a miss as the claim demands. -/
theorem C5_counterexample :
    (EnhancedLRUCache.run (κ := Nat) (ν := Nat) 0 [.put 1 10, .get 1]).map
      (fun c => (c.entries, c.stats.hits, c.stats.misses)) = some ([(1, 10)], 1, 0) := by
  decide

theorem lru_put_resident {κ ν : Type} [DecidableEq κ]
    (s s2 : EnhancedLRUCache κ ν) (k : κ) (v : ν)
    (h : EnhancedLRUCache.put s k v = some s2) :
    alookup s2.entries k = some v ∧ (EnhancedLRUCache.get s2 k).1 = some v := by
  have hres : alookup s2.entries k = some v := by
    rw [EnhancedLRUCache.put] at h
    cases hk : alookup s.entries k with
    | some w =>
      rw [hk] at h
      cases Option.some.inj h
      simp [alookup_cons]
    | none =>
      rw [hk] at h
      by_cases hlen : s.entries.length ≥ s.maxCapacity
      · rw [if_pos hlen] at h
        cases hev : EnhancedLRUCache.evict s with
        | none => rw [hev] at h; cases h
        | some c2 =>
          rw [hev] at h
          cases Option.some.inj h
          simp [alookup_cons]
      · rw [if_neg hlen] at h
        cases Option.some.inj h
        simp [alookup_cons]
  refine ⟨hres, ?_⟩
  rw [EnhancedLRUCache.get, hres]

theorem fifo_put_resident {κ ν : Type} [DecidableEq κ]
    (s : FIFOCache κ ν) (k : κ) (v : ν) :
    alookup (FIFOCache.put s k v).entries k = some v ∧
      (FIFOCache.get (FIFOCache.put s k v) k).1 = some v := by
  have hres : alookup (FIFOCache.put s k v).entries k = some v := by
    rw [FIFOCache.put]
    cases hk : alookup s.entries k with
    | some w => exact alookup_aset_self s.entries k v w hk
    | none =>
      simp only
      have hk1 : alookup (if s.entries.length ≥ s.maxCapacity then (FIFOCache.evict s).1 else s).entries k = none := by
        by_cases hlen : s.entries.length ≥ s.maxCapacity
        · rw [if_pos hlen]
          rw [FIFOCache.evict]
          cases hgo : FIFOCache.evictGo s.entries s.pinnedKeys s.insertionOrder with
          | mk q r =>
            cases r with
            | none => exact hk
            | some k0 =>
              simp only
              exact alookup_none_of_sub _ _ _ (aremove_sub s.entries k0) hk
        · rw [if_neg hlen]; exact hk
      rw [asetD, hk1]
      simp [alookup_cons]
  exact ⟨hres, by rw [FIFOCache.get, hres]⟩

theorem lifo_put_resident {κ ν : Type} [DecidableEq κ]
    (s : LIFOCache κ ν) (k : κ) (v : ν) :
    alookup (LIFOCache.put s k v).entries k = some v ∧
      (LIFOCache.get (LIFOCache.put s k v) k).1 = some v := by
  have hres : alookup (LIFOCache.put s k v).entries k = some v := by
    rw [LIFOCache.put]
    cases hk : alookup s.entries k with
    | some w => exact alookup_aset_self s.entries k v w hk
    | none =>
      simp only
      have hk1 : alookup (if s.entries.length ≥ s.maxCapacity then (LIFOCache.evict s).1 else s).entries k = none := by
        by_cases hlen : s.entries.length ≥ s.maxCapacity
        · rw [if_pos hlen]
          rw [LIFOCache.evict]
          cases hgo : LIFOCache.evictGo s.entries s.pinnedKeys s.insertionOrder with
          | mk q r =>
            cases r with
            | none => exact hk
            | some k0 =>
              simp only
              exact alookup_none_of_sub _ _ _ (aremove_sub s.entries k0) hk
        · rw [if_neg hlen]; exact hk
      rw [asetD, hk1]
      simp [alookup_cons]
  exact ⟨hres, by rw [LIFOCache.get, hres]⟩

/-- Claim C5 (amended): the claimed behaviour (`put` accepted, nothing
becomes resident, `get` always misses) holds only for the LFU policy, whose
`put` is a guarded no-op at capacity zero (and whose `get` then misses on
every key that is not resident).  For LRU, FIFO and LIFO a zero-capacity
`put(k, v)` *inserts* the entry — the eviction that precedes it can only
remove a previously resident entry — so `k` is resident afterwards and a
subsequent `get(k)` is a hit returning `v`. -/
theorem C5_zero_capacity_amended {κ ν : Type} [DecidableEq κ] :
    (∀ (s : LFUCache κ ν) (k : κ) (v : ν), s.maxCapacity = 0 → LFUCache.put s k v = s) ∧
    (∀ (s : LFUCache κ ν) (k : κ), alookup s.keyToEntry k = none →
      (LFUCache.get s k).1 = none) ∧
    (∀ (s s2 : EnhancedLRUCache κ ν) (k : κ) (v : ν),
      EnhancedLRUCache.put s k v = some s2 →
        alookup s2.entries k = some v ∧ (EnhancedLRUCache.get s2 k).1 = some v) ∧
    (∀ (s : FIFOCache κ ν) (k : κ) (v : ν),
      alookup (FIFOCache.put s k v).entries k = some v ∧
        (FIFOCache.get (FIFOCache.put s k v) k).1 = some v) ∧
    (∀ (s : LIFOCache κ ν) (k : κ) (v : ν),
      alookup (LIFOCache.put s k v).entries k = some v ∧
        (LIFOCache.get (LIFOCache.put s k v) k).1 = some v) := by
  refine ⟨?_, ?_, ?_, ?_, ?_⟩
  · intro s k v h
    rw [LFUCache.put, if_pos h]
  · intro s k h
    rw [LFUCache.get, h]
  · intro s s2 k v h
    exact lru_put_resident s s2 k v h
  · intro s k v
    exact fifo_put_resident s k v
  · intro s k v
    exact lifo_put_resident s k v

/-- Claim C5, witness: a zero-capacity LFU `put` is a no-op on the fresh
cache, and a zero-capacity LRU `put` leaves the key resident with its value
retrievable by `get`. -/
theorem C5_witness :
    LFUCache.put (κ := Nat) (ν := Nat) { maxCapacity := 0 } 1 10 = { maxCapacity := 0 } ∧
    (alookup
        ((EnhancedLRUCache.put (κ := Nat) (ν := Nat) { maxCapacity := 0 } 1 10).getD
          { maxCapacity := 0 }).entries 1 = some 10 ∧
      (EnhancedLRUCache.get
        ((EnhancedLRUCache.put (κ := Nat) (ν := Nat) { maxCapacity := 0 } 1 10).getD
          { maxCapacity := 0 }) 1).1 = some 10) :=
  ⟨C5_zero_capacity_amended.1 { maxCapacity := 0 } 1 10 (by decide),
   C5_zero_capacity_amended.2.2.1 { maxCapacity := 0 } _ 1 10 (by decide)⟩

/-! ## C6 — statistics invariant -/

/-- The statistics discipline claimed for every policy cache, with the hit
rate corrected to the percentage the source computes. -/
def statInv (st : CacheStatistics) : Prop :=
  st.totalAccesses = st.hits + st.misses ∧
  st.hitRate =
    if 0 < st.hits + st.misses then (st.hits : ℚ) * 100 / ((st.hits : ℚ) + (st.misses : ℚ))
    else 0

theorem updateHitRate_statInv (st : CacheStatistics) :
    statInv (CacheStatistics.updateHitRate st) := by
  unfold statInv CacheStatistics.updateHitRate
  dsimp only
  constructor
  · rfl
  · by_cases h : 0 < st.hits + st.misses
    · rw [if_pos h, if_pos h, Rat.mkRat_eq_div]
      push_cast
      ring
    · rw [if_neg h, if_neg h]

theorem statInv_empty : statInv {} := by
  constructor
  · rfl
  · rfl

/-- `statInv` only reads the four access-related fields. -/
theorem statInv_congr {st st' : CacheStatistics} (h : statInv st)
    (h1 : st'.hits = st.hits) (h2 : st'.misses = st.misses)
    (h3 : st'.totalAccesses = st.totalAccesses) (h4 : st'.hitRate = st.hitRate) :
    statInv st' := by
  unfold statInv at h ⊢
  rw [h1, h2, h3, h4]
  exact h

theorem lfu_evict_statInv {κ ν : Type} [DecidableEq κ] (c : LFUCache κ ν)
    (h : statInv c.stats) : statInv (LFUCache.evict c).1.stats := by
  rw [LFUCache.evict]
  cases hs : LFUCache.fsplit c.minFrequency c.frequencies with
  | none => exact h
  | some pre_b_post =>
    obtain ⟨pre, bucket, post⟩ := pre_b_post
    dsimp only
    cases hb : LFUCache.scanBuckets c.pinnedKeys ((c.minFrequency, bucket) :: post) with
    | none => exact h
    | some fk =>
      obtain ⟨f, k, scanned⟩ := fk
      dsimp only
      exact statInv_congr h rfl rfl rfl rfl

theorem lfu_step_statInv {κ ν : Type} [DecidableEq κ] (c : LFUCache κ ν)
    (op : CacheOp κ ν) (h : statInv c.stats) : statInv (LFUCache.step c op).stats := by
  cases op with
  | put k v =>
    rw [LFUCache.step, LFUCache.put]
    by_cases h0 : c.maxCapacity = 0
    · rw [if_pos h0]; exact h
    · rw [if_neg h0]
      cases hk : alookup c.keyToEntry k with
      | some w => exact h
      | none =>
        by_cases hlen : c.keyToEntry.length ≥ c.maxCapacity
        · simp only [hlen, if_true]
          exact lfu_evict_statInv c h
        · simp only [hlen, if_false]
          exact h
  | get k =>
    rw [LFUCache.step, LFUCache.get]
    cases hk : alookup c.keyToEntry k with
    | none => exact updateHitRate_statInv _
    | some v => exact updateHitRate_statInv _
  | remove k =>
    rw [LFUCache.step, LFUCache.remove]
    cases hk : alookup c.keyToEntry k with
    | none => exact h
    | some v => exact h
  | clear => exact h
  | pin k =>
    rw [LFUCache.step, LFUCache.pin]
    by_cases hk : (alookup c.keyToEntry k).isSome
    · rw [if_pos hk]
      by_cases hp : k ∈ c.pinnedKeys
      · rw [if_pos hp]; exact h
      · rw [if_neg hp]; exact h
    · rw [if_neg hk]; exact h
  | unpin k => exact h
  | prefetch k v =>
    rw [LFUCache.step, LFUCache.prefetch]
    cases hk : alookup c.keyToEntry k with
    | none =>
      by_cases hlen : c.keyToEntry.length ≥ c.maxCapacity
      · simp only [hlen, if_true]
        exact statInv_congr (lfu_evict_statInv c h) rfl rfl rfl rfl
      · simp only [hlen, if_false]
        exact statInv_congr h rfl rfl rfl rfl
    | some w => exact statInv_congr h rfl rfl rfl rfl
  | resetStatistics => exact statInv_empty

theorem lfu_run_statInv {κ ν : Type} [DecidableEq κ] (cap : Nat)
    (ops : List (CacheOp κ ν)) : statInv (LFUCache.run cap ops).stats := by
  rw [LFUCache.run]
  have : ∀ (l : List (CacheOp κ ν)) (c : LFUCache κ ν), statInv c.stats →
      statInv (l.foldl LFUCache.step c).stats := by
    intro l
    induction l with
    | nil => intro c hc; exact hc
    | cons op rest ih =>
      intro c hc
      exact ih _ (lfu_step_statInv c op hc)
  exact this ops _ statInv_empty

theorem fifo_evict_statInv {κ ν : Type} [DecidableEq κ] (c : FIFOCache κ ν)
    (h : statInv c.stats) : statInv (FIFOCache.evict c).1.stats := by
  rw [FIFOCache.evict]
  cases hgo : FIFOCache.evictGo c.entries c.pinnedKeys c.insertionOrder with
  | mk q r =>
    cases r with
    | none => exact h
    | some k => exact statInv_congr h rfl rfl rfl rfl

theorem fifo_step_statInv {κ ν : Type} [DecidableEq κ] (c : FIFOCache κ ν)
    (op : CacheOp κ ν) (h : statInv c.stats) : statInv (FIFOCache.step c op).stats := by
  cases op with
  | put k v =>
    rw [FIFOCache.step, FIFOCache.put]
    cases hk : alookup c.entries k with
    | some w => exact h
    | none =>
      by_cases hlen : c.entries.length ≥ c.maxCapacity
      · simp only [hlen, if_true]
        exact fifo_evict_statInv c h
      · simp only [hlen, if_false]
        exact h
  | get k =>
    rw [FIFOCache.step, FIFOCache.get]
    cases hk : alookup c.entries k with
    | none => exact updateHitRate_statInv _
    | some v => exact updateHitRate_statInv _
  | remove k =>
    rw [FIFOCache.step, FIFOCache.remove]
    cases hk : alookup c.entries k with
    | none => exact h
    | some v => exact h
  | clear => exact h
  | pin k =>
    rw [FIFOCache.step, FIFOCache.pin]
    by_cases hk : (alookup c.entries k).isSome
    · rw [if_pos hk]
      by_cases hp : k ∈ c.pinnedKeys
      · rw [if_pos hp]; exact h
      · rw [if_neg hp]; exact h
    · rw [if_neg hk]; exact h
  | unpin k => exact h
  | prefetch k v =>
    rw [FIFOCache.step, FIFOCache.prefetch]
    cases hk : alookup c.entries k with
    | none =>
      by_cases hlen : c.entries.length ≥ c.maxCapacity
      · simp only [hlen, if_true]
        exact statInv_congr (fifo_evict_statInv c h) rfl rfl rfl rfl
      · simp only [hlen, if_false]
        exact statInv_congr h rfl rfl rfl rfl
    | some w => exact statInv_congr h rfl rfl rfl rfl
  | resetStatistics => exact statInv_empty

theorem fifo_run_statInv {κ ν : Type} [DecidableEq κ] (cap : Nat)
    (ops : List (CacheOp κ ν)) : statInv (FIFOCache.run cap ops).stats := by
  rw [FIFOCache.run]
  have : ∀ (l : List (CacheOp κ ν)) (c : FIFOCache κ ν), statInv c.stats →
      statInv (l.foldl FIFOCache.step c).stats := by
    intro l
    induction l with
    | nil => intro c hc; exact hc
    | cons op rest ih =>
      intro c hc
      exact ih _ (fifo_step_statInv c op hc)
  exact this ops _ statInv_empty

theorem lifo_evict_statInv {κ ν : Type} [DecidableEq κ] (c : LIFOCache κ ν)
    (h : statInv c.stats) : statInv (LIFOCache.evict c).1.stats := by
  rw [LIFOCache.evict]
  cases hgo : LIFOCache.evictGo c.entries c.pinnedKeys c.insertionOrder with
  | mk q r =>
    cases r with
    | none => exact h
    | some k => exact statInv_congr h rfl rfl rfl rfl

theorem lifo_step_statInv {κ ν : Type} [DecidableEq κ] (c : LIFOCache κ ν)
    (op : CacheOp κ ν) (h : statInv c.stats) : statInv (LIFOCache.step c op).stats := by
  cases op with
  | put k v =>
    rw [LIFOCache.step, LIFOCache.put]
    cases hk : alookup c.entries k with
    | some w => exact h
    | none =>
      by_cases hlen : c.entries.length ≥ c.maxCapacity
      · simp only [hlen, if_true]
        exact lifo_evict_statInv c h
      · simp only [hlen, if_false]
        exact h
  | get k =>
    rw [LIFOCache.step, LIFOCache.get]
    cases hk : alookup c.entries k with
    | none => exact updateHitRate_statInv _
    | some v => exact updateHitRate_statInv _
  | remove k =>
    rw [LIFOCache.step, LIFOCache.remove]
    cases hk : alookup c.entries k with
    | none => exact h
    | some v => exact h
  | clear => exact h
  | pin k =>
    rw [LIFOCache.step, LIFOCache.pin]
    by_cases hk : (alookup c.entries k).isSome
    · rw [if_pos hk]
      by_cases hp : k ∈ c.pinnedKeys
      · rw [if_pos hp]; exact h
      · rw [if_neg hp]; exact h
    · rw [if_neg hk]; exact h
  | unpin k => exact h
  | prefetch k v =>
    rw [LIFOCache.step, LIFOCache.prefetch]
    cases hk : alookup c.entries k with
    | none =>
      by_cases hlen : c.entries.length ≥ c.maxCapacity
      · simp only [hlen, if_true]
        exact statInv_congr (lifo_evict_statInv c h) rfl rfl rfl rfl
      · simp only [hlen, if_false]
        exact statInv_congr h rfl rfl rfl rfl
    | some w => exact statInv_congr h rfl rfl rfl rfl
  | resetStatistics => exact statInv_empty

theorem lifo_run_statInv {κ ν : Type} [DecidableEq κ] (cap : Nat)
    (ops : List (CacheOp κ ν)) : statInv (LIFOCache.run cap ops).stats := by
  rw [LIFOCache.run]
  have : ∀ (l : List (CacheOp κ ν)) (c : LIFOCache κ ν), statInv c.stats →
      statInv (l.foldl LIFOCache.step c).stats := by
    intro l
    induction l with
    | nil => intro c hc; exact hc
    | cons op rest ih =>
      intro c hc
      exact ih _ (lifo_step_statInv c op hc)
  exact this ops _ statInv_empty

theorem lru_evict_statInv {κ ν : Type} [DecidableEq κ] (c c2 : EnhancedLRUCache κ ν)
    (hev : EnhancedLRUCache.evict c = some c2) (h : statInv c.stats) : statInv c2.stats := by
  rw [EnhancedLRUCache.evict] at hev
  cases hgo : EnhancedLRUCache.evictGo c.pinnedKeys (EnhancedLRUCache.evictFuel c.entries) c.entries with
  | none => rw [hgo] at hev; cases hev
  | some lr =>
    obtain ⟨l, removed⟩ := lr
    rw [hgo] at hev
    cases Option.some.inj hev
    cases removed with
    | true => exact statInv_congr h rfl rfl rfl rfl
    | false => exact h

theorem lru_step_statInv {κ ν : Type} [DecidableEq κ] (c c2 : EnhancedLRUCache κ ν)
    (op : CacheOp κ ν) (hst : EnhancedLRUCache.step c op = some c2) (h : statInv c.stats) :
    statInv c2.stats := by
  cases op with
  | put k v =>
    rw [EnhancedLRUCache.step, EnhancedLRUCache.put] at hst
    cases hk : alookup c.entries k with
    | some w =>
      rw [hk] at hst
      cases Option.some.inj hst
      exact h
    | none =>
      rw [hk] at hst
      by_cases hlen : c.entries.length ≥ c.maxCapacity
      · rw [if_pos hlen] at hst
        cases hev : EnhancedLRUCache.evict c with
        | none => rw [hev] at hst; cases hst
        | some cev =>
          rw [hev] at hst
          cases Option.some.inj hst
          exact statInv_congr (lru_evict_statInv c cev hev h) rfl rfl rfl rfl
      · rw [if_neg hlen] at hst
        cases Option.some.inj hst
        exact h
  | get k =>
    rw [EnhancedLRUCache.step, EnhancedLRUCache.get] at hst
    cases hk : alookup c.entries k with
    | none =>
      rw [hk] at hst
      cases Option.some.inj hst
      exact updateHitRate_statInv _
    | some v =>
      rw [hk] at hst
      cases Option.some.inj hst
      exact updateHitRate_statInv _
  | remove k =>
    rw [EnhancedLRUCache.step, EnhancedLRUCache.remove] at hst
    cases hk : alookup c.entries k with
    | none =>
      rw [hk] at hst
      cases Option.some.inj hst
      exact h
    | some v =>
      rw [hk] at hst
      cases Option.some.inj hst
      exact h
  | clear =>
    cases Option.some.inj hst
    exact h
  | pin k =>
    rw [EnhancedLRUCache.step, EnhancedLRUCache.pin] at hst
    by_cases hk : (alookup c.entries k).isSome
    · rw [if_pos hk] at hst
      by_cases hp : k ∈ c.pinnedKeys
      · rw [if_pos hp] at hst
        cases Option.some.inj hst
        exact h
      · rw [if_neg hp] at hst
        cases Option.some.inj hst
        exact h
    · rw [if_neg hk] at hst
      cases Option.some.inj hst
      exact h
  | unpin k =>
    cases Option.some.inj hst
    exact h
  | prefetch k v =>
    rw [EnhancedLRUCache.step, EnhancedLRUCache.prefetch] at hst
    cases hk : alookup c.entries k with
    | none =>
      rw [hk] at hst
      by_cases hlen : c.entries.length < c.maxCapacity
      · rw [if_pos hlen] at hst
        cases Option.some.inj hst
        exact statInv_congr h rfl rfl rfl rfl
      · rw [if_neg hlen] at hst
        cases hev : EnhancedLRUCache.evict c with
        | none => rw [hev] at hst; cases hst
        | some cev =>
          rw [hev] at hst
          cases Option.some.inj hst
          exact statInv_congr (lru_evict_statInv c cev hev h) rfl rfl rfl rfl
    | some w =>
      rw [hk] at hst
      cases Option.some.inj hst
      exact statInv_congr h rfl rfl rfl rfl
  | resetStatistics =>
    cases Option.some.inj hst
    exact statInv_empty

theorem lru_run_statInv {κ ν : Type} [DecidableEq κ] (cap : Nat)
    (ops : List (CacheOp κ ν)) (c : EnhancedLRUCache κ ν)
    (h : EnhancedLRUCache.run cap ops = some c) : statInv c.stats := by
  rw [EnhancedLRUCache.run] at h
  have hnone : ∀ (l : List (CacheOp κ ν)),
      l.foldl (fun acc op => acc.bind (fun c => EnhancedLRUCache.step c op))
        (none : Option (EnhancedLRUCache κ ν)) = none := by
    intro l
    induction l with
    | nil => rfl
    | cons op rest ih => simpa using ih
  have main : ∀ (l : List (CacheOp κ ν)) (c0 : EnhancedLRUCache κ ν), statInv c0.stats →
      ∀ c1, l.foldl (fun acc op => acc.bind (fun c => EnhancedLRUCache.step c op)) (some c0) = some c1 →
        statInv c1.stats := by
    intro l
    induction l with
    | nil =>
      intro c0 h0 c1 h1
      cases Option.some.inj h1
      exact h0
    | cons op rest ih =>
      intro c0 h0 c1 h1
      rw [List.foldl_cons] at h1
      have hbind : (some c0).bind (fun c => EnhancedLRUCache.step c op) =
          EnhancedLRUCache.step c0 op := rfl
      rw [hbind] at h1
      cases hst : EnhancedLRUCache.step c0 op with
      | none =>
        rw [hst] at h1
        rw [hnone rest] at h1
        cases h1
      | some c0' =>
        rw [hst] at h1
        exact ih c0' (lru_step_statInv c0 c0' op hst h0) c1 h1
  exact main ops _ statInv_empty c h

/-- Claim C6, counterexample: after `put(1, 10); get(1)` on an LRU cache the
reported statistics are `hits = 1`, `total_accesses = 1` and
`hit_rate = 100` — the source stores `(hits / totalAccesses) * 100.0`, a
percentage, whereas the claim's `hits / total_accesses` would be `1`. -/
theorem C6_counterexample :
    (EnhancedLRUCache.run (κ := Nat) (ν := Nat) 1 [.put 1 10, .get 1]).map
      (fun c => (c.stats.hits, c.stats.totalAccesses, c.stats.hitRate)) = some (1, 1, 100) ∧
    (100 : ℚ) ≠ (1 : ℚ) / (1 : ℚ) := by
  constructor
  · decide
  · norm_num

/-- Claim C6 (amended): for every policy cache, after every operation
sequence the reported statistics satisfy `hits + misses = total_accesses`,
and `hit_rate` equals `hits / total_accesses * 100` — a percentage — when
`total_accesses > 0`, and zero otherwise.  (For the LRU model, operation
sequences whose eviction loop diverges never return statistics, hence the
`run = some` hypothesis.) -/
theorem C6_stats_invariant_amended {κ ν : Type} [DecidableEq κ] :
    (∀ (cap : Nat) (ops : List (CacheOp κ ν)) (c : EnhancedLRUCache κ ν),
      EnhancedLRUCache.run cap ops = some c → statInv c.stats) ∧
    (∀ (cap : Nat) (ops : List (CacheOp κ ν)), statInv (LFUCache.run cap ops).stats) ∧
    (∀ (cap : Nat) (ops : List (CacheOp κ ν)), statInv (FIFOCache.run cap ops).stats) ∧
    (∀ (cap : Nat) (ops : List (CacheOp κ ν)), statInv (LIFOCache.run cap ops).stats) :=
  ⟨fun cap ops c h => lru_run_statInv cap ops c h,
   fun cap ops => lfu_run_statInv cap ops,
   fun cap ops => fifo_run_statInv cap ops,
   fun cap ops => lifo_run_statInv cap ops⟩

/-- Claim C6, witness: the invariant instantiated on the concrete LRU run
`put(1, 10); get(1); get(2)`. -/
theorem C6_witness :
    statInv ((EnhancedLRUCache.run (κ := Nat) (ν := Nat) 1
      [.put 1 10, .get 1, .get 2]).getD { maxCapacity := 0 }).stats :=
  (C6_stats_invariant_amended (κ := Nat) (ν := Nat)).1 1 [.put 1 10, .get 1, .get 2] _ (by decide)

/-! ## C3 — capacity bound and pinned entries -/

namespace FIFOCache

variable {κ ν : Type} [DecidableEq κ]

/-- A key chosen by the FIFO pop loop is resident and unpinned. -/
theorem evictGo_some_valid (entries : List (κ × ν)) (pinned : List κ) :
    ∀ (q q2 : List κ) (k : κ), evictGo entries pinned q = (q2, some k) →
      (alookup entries k).isSome ∧ k ∉ pinned := by
  intro q
  induction q with
  | nil =>
    intro q2 k h
    simp only [evictGo, Prod.mk.injEq] at h
    cases h.2
  | cons x rest ih =>
    intro q2 k h
    rw [evictGo] at h
    by_cases hc : (alookup entries x).isSome ∧ x ∉ pinned
    · rw [if_pos hc] at h
      obtain ⟨-, h2⟩ := Prod.mk.injEq .. ▸ h
      cases Option.some.inj h2
      exact hc
    · rw [if_neg hc] at h
      exact ih q2 k h
  
/-- When the FIFO pop loop evicts nothing, every queued key was stale or
pinned. -/
theorem evictGo_none_stale (entries : List (κ × ν)) (pinned : List κ) :
    ∀ (q q2 : List κ), evictGo entries pinned q = (q2, none) →
      ∀ x ∈ q, alookup entries x = none ∨ x ∈ pinned := by
  intro q
  induction q with
  | nil => intro q2 h x hx; cases hx
  | cons y rest ih =>
    intro q2 h x hx
    rw [evictGo] at h
    by_cases hc : (alookup entries y).isSome ∧ y ∉ pinned
    · rw [if_pos hc] at h
      obtain ⟨-, h2⟩ := Prod.mk.injEq .. ▸ h
      cases h2
    · rw [if_neg hc] at h
      rcases List.mem_cons.mp hx with heq | hmem
      · subst heq
        rcases Decidable.not_and_iff_or_not.mp hc with h1 | h2
        · left
          cases ha : alookup entries x with
          | none => rfl
          | some v => exact absurd (by rw [ha]; rfl) h1
        · right
          exact Decidable.not_not.mp h2
      · exact ih q2 h x hmem

end FIFOCache

/-- Claim C3, counterexample: FIFO cache of capacity 1; `put 1`, `pin 1`,
`put 2`.  The eviction triggered by the second `put` pops the only queued
key, finds it pinned, discards the pop and removes nothing, and the insert
then proceeds: afterwards `size = 2 > capacity = 1` while the resident key
`2` is *not* pinned — refuting "size <= capacity holds after each operation
unless all resident entries are pinned". -/
theorem C3_counterexample :
    let c := FIFOCache.run (κ := Nat) (ν := Nat) 1 [.put 1 10, .pin 1, .put 2 20]
    ¬(c.entries.length ≤ c.maxCapacity ∨ ∀ e ∈ c.entries, e.1 ∈ c.pinnedKeys) := by
  decide

/-- Claim C3 (amended, for the cited FIFO policy): an eviction never removes
a pinned entry (first conjunct), and after a `put` the size stays within
capacity *unless* the eviction scan found no queued key that is resident and
unpinned — in that case the cache operates over capacity (second conjunct).
The exempting condition is the exhaustion of the eviction queue's
candidates, not "all resident entries are pinned": a pinned key is dropped
from the queue by the failed scan, so a later unpinned resident does not
restore the bound. -/
theorem C3_fifo_bound_amended {κ ν : Type} [DecidableEq κ] :
    (∀ (s : FIFOCache κ ν) (s2 : FIFOCache κ ν) (k : κ),
      FIFOCache.evict s = (s2, some k) → k ∉ s.pinnedKeys) ∧
    (∀ (s : FIFOCache κ ν) (k : κ) (v : ν), s.entries.length ≤ s.maxCapacity →
      (FIFOCache.put s k v).entries.length ≤ s.maxCapacity ∨
        ∀ q ∈ s.insertionOrder, alookup s.entries q = none ∨ q ∈ s.pinnedKeys) := by
  constructor
  · intro s s2 k h
    rw [FIFOCache.evict] at h
    cases hgo : FIFOCache.evictGo s.entries s.pinnedKeys s.insertionOrder with
    | mk q r =>
      rw [hgo] at h
      cases r with
      | none =>
        obtain ⟨-, h2⟩ := Prod.mk.injEq .. ▸ h
        cases h2
      | some k0 =>
        obtain ⟨-, h2⟩ := Prod.mk.injEq .. ▸ h
        have hk0 : k0 = k := Option.some.inj h2
        exact hk0 ▸ (FIFOCache.evictGo_some_valid s.entries s.pinnedKeys s.insertionOrder q k0 hgo).2
  · intro s k v hcap
    rw [FIFOCache.put]
    cases hk : alookup s.entries k with
    | some w =>
      left
      rw [aset_length]
      exact hcap
    | none =>
      by_cases hlen : s.entries.length ≥ s.maxCapacity
      · simp only [hlen, if_true]
        rw [FIFOCache.evict]
        cases hgo : FIFOCache.evictGo s.entries s.pinnedKeys s.insertionOrder with
        | mk q r =>
          cases r with
          | none =>
            right
            exact FIFOCache.evictGo_none_stale s.entries s.pinnedKeys s.insertionOrder q hgo
          | some k0 =>
            left
            dsimp only
            have hvalid := FIFOCache.evictGo_some_valid s.entries s.pinnedKeys s.insertionOrder q k0 hgo
            obtain ⟨hsome, -⟩ := hvalid
            cases hl0 : alookup s.entries k0 with
            | none => rw [hl0] at hsome; cases hsome
            | some w0 =>
              have hrem := alookup_some_length_aremove s.entries k0 w0 hl0
              have hknone : alookup (aremove s.entries k0) k = none :=
                alookup_none_of_sub _ _ _ (aremove_sub s.entries k0) hk
              rw [asetD, hknone]
              simp only [Option.isSome_none, Bool.false_eq_true, if_false, List.length_cons]
              omega
      · simp only [hlen, if_false]
        left
        rw [asetD, hk]
        simp only [Option.isSome_none, Bool.false_eq_true, if_false, List.length_cons]
        omega

/-- The concrete one-entry FIFO cache used to witness claim C3. -/
def c3FifoState : FIFOCache Nat Nat :=
  { maxCapacity := 1, entries := [(7, 70)], insertionOrder := [7], pinnedKeys := [], stats := {} }

/-- Claim C3, witness: the amended statement instantiated — a concrete
eviction removes the unpinned key `7` (`7 ∉ pinned` discharged on the
concrete state), and a `put` into a concrete cache at capacity stays within
capacity. -/
theorem C3_witness :
    (7 : Nat) ∉ c3FifoState.pinnedKeys ∧
    ((FIFOCache.put c3FifoState 8 80).entries.length ≤ c3FifoState.maxCapacity ∨
      ∀ q ∈ c3FifoState.insertionOrder,
        alookup c3FifoState.entries q = none ∨ q ∈ c3FifoState.pinnedKeys) :=
  ⟨C3_fifo_bound_amended.1 c3FifoState (FIFOCache.evict c3FifoState).1 7 (by decide),
   C3_fifo_bound_amended.2 c3FifoState 8 80 (by decide)⟩

/-! ## C2 — LFU eviction choice -/

/-- The eviction target exactly as claim C2 words it (a spec-side
definition, to be compared with the source-derived `LFUCache.evict`):
among the non-empty buckets at or above `min_frequency` that hold an
unpinned key, take the one of *lowest frequency*, and within it the
earliest-inserted unpinned key. -/
def lfuClaimTarget {κ ν : Type} [DecidableEq κ] (s : LFUCache κ ν) : Option κ :=
  let cands := s.frequencies.filter (fun fb =>
    decide (s.minFrequency ≤ fb.1) && fb.2.any (fun k => decide (k ∉ s.pinnedKeys)))
  match (cands.map Prod.fst).min? with
  | none => none
  | some fmin =>
    match alookup cands fmin with
    | none => none
    | some bucket => bucket.find? (fun k => decide (k ∉ s.pinnedKeys))

/-- The LFU state refuting claim C2: `frequencies` is an iteration order the
unordered container is free to produce — bucket 1 (`min_frequency`) first,
then bucket 3, then bucket 2.  Key 10 (frequency 1) is pinned. -/
def c2LfuBad : LFUCache Nat Nat :=
  { maxCapacity := 3, minFrequency := 1
    frequencies := [(1, [10]), (3, [30]), (2, [20])]
    keyToEntry := [(10, 1), (30, 3), (20, 2)]
    keyToFreq := [(10, 1), (30, 3), (20, 2)]
    pinnedKeys := [10] }

/-- Claim C2, counterexample: the eviction loop iterates
`std::unordered_map` buckets in the container's order, *not* in ascending
frequency order.  In `c2LfuBad` the lowest-frequency bucket at or above
`min_frequency` holding an unpinned key is bucket 2 (key 20), but the scan
reaches bucket 3 first and evicts key 30. -/
theorem C2_counterexample :
    (LFUCache.evict c2LfuBad).2 = some 30 ∧ lfuClaimTarget c2LfuBad = some 20 ∧
      (some 30 : Option Nat) ≠ some 20 := by
  refine ⟨by decide, by decide, by decide⟩

theorem lfu_fsplit_exists {κ : Type} [DecidableEq κ] :
    ∀ (freqs : List (Nat × List κ)) (f : Nat) (b : List κ), alookup freqs f = some b →
      ∃ pre post, LFUCache.fsplit f freqs = some (pre, b, post) := by
  intro freqs
  induction freqs with
  | nil => intro f b h; simp [alookup] at h
  | cons hd tl ih =>
    intro f b h
    obtain ⟨g, ks⟩ := hd
    rw [alookup_cons] at h
    by_cases hf : f = g
    · rw [if_pos hf] at h
      cases Option.some.inj h
      refine ⟨[], tl, ?_⟩
      rw [LFUCache.fsplit, if_pos hf.symm]
    · rw [if_neg hf] at h
      obtain ⟨pre, post, hsp⟩ := ih f b h
      refine ⟨(g, ks) :: pre, post, ?_⟩
      rw [LFUCache.fsplit, if_neg (fun hgf => hf hgf.symm), hsp]

theorem lfu_firstUnpinned_of_find {κ : Type} [DecidableEq κ] :
    ∀ (pinned ks : List κ) (k : κ), ks.find? (fun x => decide (x ∉ pinned)) = some k →
      ∃ ks2, LFUCache.firstUnpinned pinned ks = some (k, ks2) := by
  intro pinned ks
  induction ks with
  | nil => intro k h; simp [List.find?] at h
  | cons y ys ih =>
    intro k h
    rw [List.find?] at h
    by_cases hy : y ∈ pinned
    · have hpred : decide (y ∉ pinned) = false := by simp [hy]
      rw [hpred] at h
      obtain ⟨ks2, h2⟩ := ih k h
      refine ⟨y :: ks2, ?_⟩
      rw [LFUCache.firstUnpinned, if_pos hy, h2]
    · have hpred : decide (y ∉ pinned) = true := by simp [hy]
      rw [hpred] at h
      cases Option.some.inj h
      refine ⟨ys, ?_⟩
      rw [LFUCache.firstUnpinned, if_neg hy]

/-- Claim C2 (amended): the part of the claim the source guarantees.  When
`frequencies.find(min_frequency)` succeeds and that bucket contains an
unpinned key, the evicted key is the bucket's first — i.e.
earliest-inserted, since `push_back` appends — unpinned key.  Beyond that
first bucket the scan follows the unordered container's iteration order,
which need not be ascending in frequency (see the counterexample), so the
"lowest-frequency bucket" clause holds only for the `min_frequency` bucket
itself. -/
theorem C2_evict_min_bucket_amended {κ ν : Type} [DecidableEq κ]
    (s : LFUCache κ ν) (bucket : List κ) (k : κ)
    (hfind : alookup s.frequencies s.minFrequency = some bucket)
    (hunpinned : bucket.find? (fun x => decide (x ∉ s.pinnedKeys)) = some k) :
    (LFUCache.evict s).2 = some k := by
  obtain ⟨pre, post, hsp⟩ := lfu_fsplit_exists s.frequencies s.minFrequency bucket hfind
  obtain ⟨ks2, hfu⟩ := lfu_firstUnpinned_of_find s.pinnedKeys bucket k hunpinned
  rw [LFUCache.evict, hsp]
  dsimp only
  rw [LFUCache.scanBuckets, hfu]

/-- The LFU state witnessing claim C2's amended theorem: one bucket at the
`min_frequency` with a pinned first key and an unpinned second key. -/
def c2LfuWitnessState : LFUCache Nat Nat :=
  { maxCapacity := 2, minFrequency := 1
    frequencies := [(1, [7, 8])]
    keyToEntry := [(7, 1), (8, 2)]
    keyToFreq := [(7, 1), (8, 1)]
    pinnedKeys := [7] }

/-- Claim C2, witness: on the concrete state the eviction removes key `8`,
the earliest-inserted unpinned key of the `min_frequency` bucket. -/
theorem C2_witness : (LFUCache.evict c2LfuWitnessState).2 = some 8 :=
  C2_evict_min_bucket_amended c2LfuWitnessState [7, 8] 8 (by decide) (by decide)

/-! ## C7 — authentication coverage -/

/-- A coordinator with an auth manager present but *no* authenticated
session (`currentUser` empty), over a small host tree. -/
def c7State : FileSystem :=
  { auth := some { currentUser := "", users := [("admin", true)] }
    disk := [("d", .dir), ("b.txt", .file "bee")] }

/-- Claim C7, counterexample: with no session authenticated,
`createDirectory`, `listDirectory` and `setPermissions` all succeed —
none of them consults the auth manager — while `readFile` on the same state
does fail with the auth-required error (showing the session really is
unauthenticated).  This refutes "every coordinator operation … fails with an
auth-required error when no session is authenticated". -/
theorem C7_counterexample :
    (FileSystem.listDirectory c7State "d").1 = .ok [] ∧
    (FileSystem.createDirectory c7State "x").1 = .ok true ∧
    (FileSystem.setPermissions c7State "b.txt" 448).1 = .ok () ∧
    FileSystem.readFile c7State "b.txt" = some (.error .authRequired, c7State) := by
  refine ⟨by decide, by decide, by decide, by decide⟩

/-- Claim C7 (amended): when an auth manager is present and no session is
authenticated, `createFile`, `writeFile`, `readFile` and `deleteFile` fail
with the auth-required error and leave the coordinator state unchanged;
`createDirectory`, `listDirectory` and `setPermissions` never raise the
auth-required error — they perform no authentication check at all. -/
theorem C7_auth_amended :
    (∀ (s : FileSystem) (a : AuthManager) (p data : String),
      s.auth = some a → a.isLoggedIn = false →
        FileSystem.createFile s p = (.error .authRequired, s) ∧
        FileSystem.writeFile s p data = some (.error .authRequired, s) ∧
        FileSystem.readFile s p = some (.error .authRequired, s) ∧
        FileSystem.deleteFile s p = (.error .authRequired, s)) ∧
    (∀ (s : FileSystem) (p : String) (permissions : Nat),
      (FileSystem.createDirectory s p).1 ≠ .error .authRequired ∧
      (FileSystem.listDirectory s p).1 ≠ .error .authRequired ∧
      (FileSystem.setPermissions s p permissions).1 ≠ .error .authRequired) := by
  constructor
  · intro s a p data ha hlog
    have hd : FileSystem.authDenied s = true := by
      rw [FileSystem.authDenied, ha]
      dsimp only
      rw [hlog]
      rfl
    refine ⟨?_, ?_, ?_, ?_⟩
    · rw [FileSystem.createFile, if_pos hd]
    · rw [FileSystem.writeFile, if_pos hd]
    · rw [FileSystem.readFile, if_pos hd]
    · rw [FileSystem.deleteFile, if_pos hd]
  · intro s p permissions
    refine ⟨?_, ?_, ?_⟩
    · rw [FileSystem.createDirectory]
      by_cases hex : FileSystem.pathExists s p = true
      · rw [if_pos hex]; intro h; cases h
      · rw [if_neg hex]; intro h; cases h
    · rw [FileSystem.listDirectory]
      by_cases hex : ¬FileSystem.pathExists s p = true
      · rw [if_pos hex]; intro h; cases Except.error.inj h
      · rw [if_neg hex]; intro h; cases h
    · rw [FileSystem.setPermissions]
      by_cases hex : ¬FileSystem.pathExists s p = true
      · rw [if_pos hex]; intro h; cases Except.error.inj h
      · rw [if_neg hex]; intro h; cases h

/-- Claim C7, witness: the amended statement on the concrete state — the
four guarded operations reject the unauthenticated session, and the three
unguarded ones never raise the auth error. -/
theorem C7_witness :
    (FileSystem.createFile c7State "n.txt" = (.error .authRequired, c7State) ∧
      FileSystem.writeFile c7State "n.txt" "x" = some (.error .authRequired, c7State) ∧
      FileSystem.readFile c7State "n.txt" = some (.error .authRequired, c7State) ∧
      FileSystem.deleteFile c7State "n.txt" = (.error .authRequired, c7State)) ∧
    ((FileSystem.createDirectory c7State "x").1 ≠ .error .authRequired ∧
      (FileSystem.listDirectory c7State "x").1 ≠ .error .authRequired ∧
      (FileSystem.setPermissions c7State "x" 448).1 ≠ .error .authRequired) :=
  ⟨C7_auth_amended.1 c7State { currentUser := "", users := [("admin", true)] } "n.txt" "x"
      (by decide) (by decide),
   C7_auth_amended.2 c7State "x" 448⟩

/-! ## C10 — deleteFile clears the whole read cache -/

theorem lru_put_empty {κ ν : Type} [DecidableEq κ] (c : EnhancedLRUCache κ ν) (k : κ) (v : ν)
    (h : c.entries = []) :
    EnhancedLRUCache.put c k v = some { c with entries := [(k, v)] } := by
  rw [EnhancedLRUCache.put]
  have hl : alookup c.entries k = none := by rw [h]; rfl
  rw [hl]
  by_cases hcap : c.entries.length ≥ c.maxCapacity
  · rw [if_pos hcap]
    have hev : EnhancedLRUCache.evict c = some c := by
      rw [EnhancedLRUCache.evict, h]
      dsimp only [EnhancedLRUCache.evictGo]
      simp only [Bool.false_eq_true, if_false]
      rw [← h]
    rw [hev]
    dsimp only
    rw [← h]
  · rw [if_neg hcap]
    dsimp only
    rw [← h]

theorem getMetadata_owner (s : FileSystem) (p : String) (m : FileMetadata)
    (h : FileSystem.getMetadata s p = .ok m) : m.owner = "" := by
  rw [FileSystem.getMetadata] at h
  cases hd : alookup s.disk p with
  | none => rw [hd] at h; cases h
  | some node =>
    rw [hd] at h
    cases node with
    | file c =>
      cases Except.ok.inj h
      rfl
    | dir =>
      cases Except.ok.inj h
      rfl

theorem readFile_miss_on_empty (s : FileSystem) (q data : String)
    (hauth : FileSystem.authDenied s = false)
    (hperm : FileSystem.permDenied s q = none)
    (hentries : s.enhancedCache.entries = [])
    (hdisk : alookup s.disk q = some (.file data)) :
    ∃ s3, FileSystem.readFile s q = some (.ok data, s3) ∧
      s3.stats.cacheMisses = s.stats.cacheMisses + 1 ∧
      alookup s3.enhancedCache.entries q = some data := by
  have hgetlookup : alookup s.enhancedCache.entries q = (none : Option String) := by
    rw [hentries]; rfl
  have hget : s.enhancedCache.get q =
      (none, { s.enhancedCache with
        stats := CacheStatistics.updateHitRate
          { s.enhancedCache.stats with misses := s.enhancedCache.stats.misses + 1 } }) := by
    rw [EnhancedLRUCache.get, hgetlookup]
  have hput : EnhancedLRUCache.put
      ({ s.enhancedCache with
        stats := CacheStatistics.updateHitRate
          { s.enhancedCache.stats with misses := s.enhancedCache.stats.misses + 1 } }) q data =
      some { s.enhancedCache with
        stats := CacheStatistics.updateHitRate
          { s.enhancedCache.stats with misses := s.enhancedCache.stats.misses + 1 }
        entries := [(q, data)] } :=
    lru_put_empty _ q data hentries
  rw [FileSystem.readFile, if_neg (by simp [hauth]), hperm]
  dsimp only
  rw [hget]
  dsimp only
  rw [hdisk]
  dsimp only
  rw [hput]
  dsimp only
  refine ⟨_, rfl, rfl, ?_⟩
  rw [alookup_cons, if_pos rfl]

/-- Claim C10 (confirmed): a successful `deleteFile(p)` leaves the read
cache completely empty (`enhancedCache->clear()`), so the next `readFile(q)`
of *any* host file `q` — in particular every path cached before the delete —
misses the cache (`cacheMisses` increments) and reloads the content from the
host filesystem, re-inserting it into the cache. -/
theorem C10_delete_clears_cache (s s2 : FileSystem) (p q data : String)
    (hdel : FileSystem.deleteFile s p = (.ok true, s2))
    (hdisk : alookup s2.disk q = some (.file data)) :
    s2.enhancedCache.entries = [] ∧
    ∃ s3, FileSystem.readFile s2 q = some (.ok data, s3) ∧
      s3.stats.cacheMisses = s2.stats.cacheMisses + 1 ∧
      alookup s3.enhancedCache.entries q = some data := by
  rw [FileSystem.deleteFile] at hdel
  by_cases hauth : FileSystem.authDenied s = true
  · rw [if_pos hauth] at hdel
    obtain ⟨h1, -⟩ := Prod.mk.injEq .. ▸ hdel
    cases h1
  rw [if_neg hauth] at hdel
  cases hperm : FileSystem.permDenied s p with
  | some e =>
    rw [hperm] at hdel
    dsimp only at hdel
    obtain ⟨h1, -⟩ := Prod.mk.injEq .. ▸ hdel
    cases h1
  | none =>
    rw [hperm] at hdel
    dsimp only at hdel
    by_cases hex : ¬FileSystem.pathExists s p = true
    · rw [if_pos hex] at hdel
      obtain ⟨h1, -⟩ := Prod.mk.injEq .. ▸ hdel
      cases h1
    · rw [if_neg hex] at hdel
      cases hnode : alookup s.disk p with
      | none =>
        rw [hnode] at hdel
        dsimp only at hdel
        obtain ⟨h1, -⟩ := Prod.mk.injEq .. ▸ hdel
        cases Except.ok.inj h1
      | some node =>
        rw [hnode] at hdel
        cases node with
        | dir =>
          dsimp only at hdel
          obtain ⟨h1, -⟩ := Prod.mk.injEq .. ▸ hdel
          cases Except.ok.inj h1
        | file content =>
          dsimp only at hdel
          obtain ⟨-, h2⟩ := Prod.mk.injEq .. ▸ hdel
          -- `s2` is the post-delete state: cache cleared, metadata erased,
          -- host file removed
          have hs2 : s2 = { s with
              enhancedCache := s.enhancedCache.clear
              fileMetadataMap := aremove s.fileMetadataMap p
              disk := aremove ({ s with
                enhancedCache := s.enhancedCache.clear
                fileMetadataMap := aremove s.fileMetadataMap p } : FileSystem).disk p } := h2.symm
          have hentries : s2.enhancedCache.entries = [] := by
            rw [hs2]
            rfl
          have hauth2 : FileSystem.authDenied s2 = false := by
            have hsame : FileSystem.authDenied s2 = FileSystem.authDenied s := by
              rw [hs2]
              rfl
            rw [hsame]
            cases hb : FileSystem.authDenied s with
            | false => rfl
            | true => exact absurd hb hauth
          have hperm2 : FileSystem.permDenied s2 q = none := by
            rw [FileSystem.permDenied]
            cases ha2 : s2.auth with
            | none => rfl
            | some a =>
              have hfi : FileSystem.getFileInfo s2 q =
                  .ok { name := q, owner := "", size := data.length, isDirectory := false } := by
                rw [FileSystem.getFileInfo, FileSystem.getMetadata, hdisk]
              rw [hfi]
              dsimp only
              -- the delete succeeded with this same (unchanged) auth manager,
              -- so the owner-or-admin check passes for `q` exactly as it did
              -- for `p`: the metadata owner is always empty
              have hasame : s.auth = some a := by
                rw [hs2] at ha2
                exact ha2
              have hlogged : a.isLoggedIn = true := by
                rw [FileSystem.authDenied, hasame] at hauth
                dsimp only at hauth
                simpa using hauth
              rw [FileSystem.permDenied, hasame] at hperm
              cases hfi0 : FileSystem.getFileInfo s p with
              | error e => rw [hfi0] at hperm; cases hperm
              | ok m0 =>
                rw [hfi0] at hperm
                dsimp only at hperm
                have howner : m0.owner = "" := getMetadata_owner s p m0 hfi0
                have hu : a.currentUser ≠ "" := by
                  rw [AuthManager.isLoggedIn] at hlogged
                  simpa using hlogged
                have hcheck : ¬(m0.owner ≠ a.currentUser ∧ ¬a.isAdmin a.currentUser = true) := by
                  intro hc
                  rw [if_pos hc] at hperm
                  cases hperm
                have howneq : m0.owner ≠ a.currentUser := by
                  rw [howner]
                  exact fun hh => hu hh.symm
                have hadmin : a.isAdmin a.currentUser = true := by
                  by_contra hna
                  exact hcheck ⟨howneq, hna⟩
                rw [if_neg]
                intro hc
                exact absurd hadmin hc.2
          exact ⟨hentries, readFile_miss_on_empty s2 q data hauth2 hperm2 hentries hdisk⟩

/-- The coordinator state used to witness claim C10: an authenticated admin
session, two host files, one of them (`a.txt`) already cached. -/
def c10State : FileSystem :=
  { auth := some { currentUser := "admin", users := [("admin", true)] }
    disk := [("a.txt", .file "hello"), ("b.txt", .file "bee")]
    enhancedCache := { maxCapacity := CACHE_CAPACITY, entries := [("a.txt", "hello")] } }

/-- Claim C10, witness: deleting `b.txt` empties the cache, and the next
read of the previously cached `a.txt` is a miss that reloads from the host
tree. -/
theorem C10_witness :
    (FileSystem.deleteFile c10State "b.txt").2.enhancedCache.entries = [] ∧
    ∃ s3, FileSystem.readFile (FileSystem.deleteFile c10State "b.txt").2 "a.txt" =
        some (.ok "hello", s3) ∧
      s3.stats.cacheMisses = (FileSystem.deleteFile c10State "b.txt").2.stats.cacheMisses + 1 ∧
      alookup s3.enhancedCache.entries "a.txt" = some "hello" :=
  C10_delete_clears_cache c10State (FileSystem.deleteFile c10State "b.txt").2 "b.txt" "a.txt"
    "hello" (by decide) (by decide)

/-! ## C9 — the `find` pattern matcher -/

set_option linter.deprecated false

theorem get?_some_lt {α : Type} {l : List α} {n : Nat} {a : α} (h : l.get? n = some a) :
    n < l.length := by
  rw [List.get?_eq_getElem?] at h
  exact (List.getElem?_eq_some.mp h).1

theorem get?_some_mem {α : Type} {l : List α} {n : Nat} {a : α} (h : l.get? n = some a) :
    a ∈ l := by
  rw [List.get?_eq_getElem?] at h
  exact List.getElem?_mem h

theorem get?_drop_cons {α : Type} {l : List α} {n : Nat} {a : α} (h : l.get? n = some a) :
    l.drop n = a :: l.drop (n + 1) := by
  have hn := get?_some_lt h
  rw [List.drop_eq_get_cons hn]
  congr 1
  exact Option.some.inj ((List.get?_eq_get hn).symm.trans h)

theorem startsWithL_iff :
    ∀ (pat l : List Char), startsWithL pat l = true ↔ ∃ post, l = pat ++ post := by
  intro pat
  induction pat with
  | nil =>
    intro l
    constructor
    · intro _; exact ⟨l, rfl⟩
    · intro _; rfl
  | cons c cs ih =>
    intro l
    cases l with
    | nil =>
      constructor
      · intro h; cases h
      · rintro ⟨post, hpost⟩; cases hpost
    | cons d ds =>
      rw [startsWithL]
      constructor
      · intro h
        obtain ⟨h1, h2⟩ := Bool.and_eq_true_iff.mp h
        obtain ⟨post, hpost⟩ := (ih ds).mp h2
        exact ⟨post, by rw [hpost, List.cons_append, beq_iff_eq.mp h1]⟩
      · rintro ⟨post, hpost⟩
        rw [List.cons_append] at hpost
        cases hpost
        exact Bool.and_eq_true_iff.mpr ⟨beq_self_eq_true c, (ih _).mpr ⟨post, rfl⟩⟩

theorem substrCheck_iff :
    ∀ (pat fn : List Char), substrCheck pat fn = true ↔ ∃ pre post, fn = pre ++ pat ++ post := by
  intro pat fn
  induction fn with
  | nil =>
    rw [substrCheck, startsWithL_iff]
    constructor
    · rintro ⟨post, hpost⟩; exact ⟨[], post, hpost⟩
    · rintro ⟨pre, post, h⟩
      cases pre with
      | nil => exact ⟨post, h⟩
      | cons a as => cases h
  | cons d ds ih =>
    rw [substrCheck, Bool.or_eq_true, startsWithL_iff, ih]
    constructor
    · rintro (⟨post, hpost⟩ | ⟨pre, post, h⟩)
      · exact ⟨[], post, hpost⟩
      · exact ⟨d :: pre, post, by rw [h]; rfl⟩
    · rintro ⟨pre, post, h⟩
      cases pre with
      | nil => exact Or.inl ⟨post, h⟩
      | cons a as =>
        rw [List.cons_append, List.cons_append] at h
        cases h
        exact Or.inr ⟨as, post, rfl⟩

theorem glob_nil_eq (fs : List Char) : glob [] fs = fs.isEmpty := rfl

theorem glob_cons_eq (p : Char) (ps fs : List Char) :
    glob (p :: ps) fs =
      if p = '*' then anySuffix (glob ps) fs
      else
        (match fs with
         | [] => false
         | d :: fs2 => (p == '?' || p == d) && glob ps fs2) := rfl

theorem glob_nil_right : ∀ ps : List Char, glob ps [] = allStarsFrom ps := by
  intro ps
  induction ps with
  | nil => rfl
  | cons p ps ih =>
    rw [glob_cons_eq, allStarsFrom]
    by_cases hp : p = '*'
    · rw [if_pos hp]
      show anySuffix (glob ps) [] = _
      rw [anySuffix] at *
      rw [ih, hp]
      simp
    · rw [if_neg hp]
      have : (p == '*') = false := by
        simpa using hp
      rw [this]
      rfl

theorem anySuffix_self {g : List Char → Bool} {l : List Char} (h : g l = true) :
    anySuffix g l = true := by
  cases l with
  | nil => rw [anySuffix]; exact h
  | cons d rest =>
    rw [anySuffix, h]
    rfl

theorem anySuffix_iff (g : List Char → Bool) :
    ∀ l : List Char, anySuffix g l = true ↔ ∃ k, g (l.drop k) = true := by
  intro l
  induction l with
  | nil =>
    rw [anySuffix]
    constructor
    · intro h; exact ⟨0, h⟩
    · rintro ⟨k, hk⟩
      rwa [List.drop_nil] at hk
  | cons d rest ih =>
    rw [anySuffix, Bool.or_eq_true, ih]
    constructor
    · rintro (h | ⟨k, hk⟩)
      · exact ⟨0, h⟩
      · exact ⟨k + 1, hk⟩
    · rintro ⟨k, hk⟩
      cases k with
      | zero => exact Or.inl hk
      | succ k => exact Or.inr ⟨k, hk⟩

theorem glob_star_cons (ps : List Char) (fs : List Char) :
    glob ('*' :: ps) fs = anySuffix (glob ps) fs := by
  rw [glob_cons_eq, if_pos rfl]

theorem glob_star_absorb {ps fs : List Char} (h : glob ps fs = true) :
    glob ('*' :: ps) fs = true := by
  rw [glob_star_cons]
  exact anySuffix_self h

theorem glob_cons_no_star {p : Char} {ps : List Char} (hp : p ≠ '*') :
    ∀ fs : List Char, glob (p :: ps) fs =
      (match fs with
       | [] => false
       | d :: fs2 => (p == '?' || p == d) && glob ps fs2) := by
  intro fs
  rw [glob_cons_eq, if_neg hp]

/-- Pointwise match of a star-free pattern segment against a filename
segment: each pattern character is `?` or equal to the filename character. -/
def pwm : List Char → List Char → Bool
  | [], [] => true
  | c :: cs, d :: ds => (c == '?' || c == d) && pwm cs ds
  | _, _ => false

theorem pwm_length : ∀ seg pref : List Char, pwm seg pref = true → seg.length = pref.length := by
  intro seg
  induction seg with
  | nil =>
    intro pref h
    cases pref with
    | nil => rfl
    | cons d ds => cases h
  | cons c cs ih =>
    intro pref h
    cases pref with
    | nil => cases h
    | cons d ds =>
      rw [pwm] at h
      obtain ⟨-, h2⟩ := Bool.and_eq_true_iff.mp h
      simpa using ih ds h2

theorem pwm_append_single :
    ∀ (seg pref : List Char) (c d : Char), pwm seg pref = true → (c == '?' || c == d) = true →
      pwm (seg ++ [c]) (pref ++ [d]) = true := by
  intro seg
  induction seg with
  | nil =>
    intro pref c d h hc
    cases pref with
    | nil =>
      show pwm [c] [d] = true
      rw [pwm, hc]
      rfl
    | cons e es => cases h
  | cons x xs ih =>
    intro pref c d h hc
    cases pref with
    | nil => cases h
    | cons e es =>
      rw [pwm] at h
      obtain ⟨h1, h2⟩ := Bool.and_eq_true_iff.mp h
      rw [List.cons_append, List.cons_append, pwm, h1]
      rw [ih es c d h2 hc]
      rfl

theorem pwm_no_star :
    ∀ seg pref : List Char, pwm seg pref = true → '*' ∉ pref → '*' ∉ seg := by
  intro seg
  induction seg with
  | nil => intro pref _ _ h; cases h
  | cons c cs ih =>
    intro pref h hp hmem
    cases pref with
    | nil => cases h
    | cons d ds =>
      rw [pwm] at h
      obtain ⟨h1, h2⟩ := Bool.and_eq_true_iff.mp h
      rcases List.mem_cons.mp hmem with hc | hcs
      · subst hc
        rcases Bool.or_eq_true_iff.mp h1 with hq | hd
        · cases beq_iff_eq.mp hq
        · exact hp (beq_iff_eq.mp hd ▸ List.mem_cons_self d ds)
      · exact ih ds h2 (fun hm => hp (List.mem_cons_of_mem d hm)) hcs

theorem glob_append_pwm :
    ∀ (seg pref rest gs : List Char), pwm seg pref = true → '*' ∉ seg →
      glob (seg ++ rest) (pref ++ gs) = glob rest gs := by
  intro seg
  induction seg with
  | nil =>
    intro pref rest gs h _
    cases pref with
    | nil => rfl
    | cons d ds => cases h
  | cons c cs ih =>
    intro pref rest gs h hstar
    cases pref with
    | nil => cases h
    | cons d ds =>
      rw [pwm] at h
      obtain ⟨h1, h2⟩ := Bool.and_eq_true_iff.mp h
      have hc : c ≠ '*' := fun hc => hstar (hc ▸ List.mem_cons_self c cs)
      rw [List.cons_append, List.cons_append, glob_cons_no_star hc]
      dsimp only
      rw [h1, Bool.true_and]
      exact ih ds rest gs h2 (fun hm => hstar (List.mem_cons_of_mem c hm))

theorem glob_append_split :
    ∀ (seg gs rest : List Char), '*' ∉ seg → glob (seg ++ rest) gs = true →
      ∃ pref post, gs = pref ++ post ∧ pwm seg pref = true ∧ glob rest post = true := by
  intro seg
  induction seg with
  | nil =>
    intro gs rest _ h
    exact ⟨[], gs, rfl, rfl, h⟩
  | cons c cs ih =>
    intro gs rest hstar h
    have hc : c ≠ '*' := fun hc => hstar (hc ▸ List.mem_cons_self c cs)
    rw [List.cons_append, glob_cons_no_star hc] at h
    cases gs with
    | nil => cases h
    | cons d ds =>
      dsimp only at h
      obtain ⟨h1, h2⟩ := Bool.and_eq_true_iff.mp h
      obtain ⟨pref, post, hsplit, hpwm, hglob⟩ :=
        ih ds rest (fun hm => hstar (List.mem_cons_of_mem c hm)) h2
      refine ⟨d :: pref, post, by rw [hsplit]; rfl, ?_, hglob⟩
      rw [pwm, h1, hpwm]
      rfl

/-- The semantic reading of a greedy-loop state: the remaining direct match,
or (when a star is recorded) the match restarted from the star. -/
def rhsB (P F : List Char) (p f : Nat) (star : Option Nat) (m : Nat) : Bool :=
  glob (P.drop p) (F.drop f) ||
    (match star with
     | some s => glob (P.drop s) (F.drop m)
     | none => false)

/-- The loop invariant of the greedy matcher: positions are in range, and
when a star is recorded at `s`, the pattern segment strictly between the
star and `patternPos` is star-free and matches the filename segment between
`match` and `filenamePos` pointwise. -/
def VS (P F : List Char) (p f : Nat) (star : Option Nat) (m : Nat) : Prop :=
  f ≤ F.length ∧ p ≤ P.length ∧ m ≤ f ∧
  (match star with
   | none => True
   | some s =>
     P.get? s = some '*' ∧ s + 1 ≤ p ∧
     f - m = p - (s + 1) ∧
     pwm ((P.drop (s + 1)).take (p - (s + 1))) ((F.drop m).take (f - m)) = true)

/-- Termination measure of the greedy loop. -/
def mu (P F : List Char) (p f m : Nat) : Nat :=
  (F.length - m) * (P.length + F.length + 1) + (F.length - f) + (P.length - p)

theorem star_glob_to_cur (P F : List Char) (hF : '*' ∉ F) (s p f m : Nat)
    (hs : P.get? s = some '*') (hsp : s + 1 ≤ p) (hple : p ≤ P.length)
    (hfm : f - m = p - (s + 1)) (hmf : m ≤ f) (hfn : f ≤ F.length)
    (hpwm : pwm ((P.drop (s + 1)).take (p - (s + 1))) ((F.drop m).take (f - m)) = true)
    (hp : P.get? p = some '*')
    (hglob : glob (P.drop s) (F.drop m) = true) :
    glob (P.drop p) (F.drop f) = true := by
  have hsegstar : '*' ∉ (P.drop (s + 1)).take (p - (s + 1)) :=
    pwm_no_star _ _ hpwm (fun hm => hF (List.drop_subset m F (List.take_subset _ _ hm)))
  have hPs : P.drop s = '*' :: P.drop (s + 1) := get?_drop_cons hs
  have harith1 : s + 1 + (p - (s + 1)) = p := by omega
  have hPseg : P.drop (s + 1) = (P.drop (s + 1)).take (p - (s + 1)) ++ P.drop p := by
    have h0 := List.take_append_drop (p - (s + 1)) (P.drop (s + 1))
    rw [List.drop_drop, harith1] at h0
    exact h0.symm
  have harith2 : m + (f - m) = f := by omega
  have hFm : F.drop m = (F.drop m).take (f - m) ++ F.drop f := by
    have h0 := List.take_append_drop (f - m) (F.drop m)
    rw [List.drop_drop, harith2] at h0
    exact h0.symm
  rw [hPs, hPseg, hFm, glob_star_cons, anySuffix_iff] at hglob
  obtain ⟨k, hk⟩ := hglob
  obtain ⟨pref2, post2, hsplit2, hpwm2, hglob2⟩ := glob_append_split _ _ _ hsegstar hk
  have hlen2 := pwm_length _ _ hpwm2
  have hlenp := pwm_length _ _ hpwm
  have hpost2 : post2 = (F.drop f).drop k := by
    have h1 : post2 = (pref2 ++ post2).drop pref2.length := (List.drop_left pref2 post2).symm
    rw [← hsplit2, List.drop_drop, ← hlen2, hlenp] at h1
    have hc : k + ((F.drop m).take (f - m)).length
        = ((F.drop m).take (f - m)).length + k := Nat.add_comm _ _
    rw [hc, List.drop_append] at h1
    exact h1
  rw [hpost2] at hglob2
  have hPp : P.drop p = '*' :: P.drop (p + 1) := get?_drop_cons hp
  rw [hPp, glob_star_cons, anySuffix_iff] at hglob2
  obtain ⟨j, hj⟩ := hglob2
  rw [List.drop_drop] at hj
  rw [hPp, glob_star_cons, anySuffix_iff]
  exact ⟨k + j, hj⟩

theorem star_glob_exit (P F : List Char) (hF : '*' ∉ F) (s p m : Nat)
    (hs : P.get? s = some '*') (hsp : s + 1 ≤ p) (hple : p ≤ P.length)
    (hfm : F.length - m = p - (s + 1)) (hmf : m ≤ F.length)
    (hpwm : pwm ((P.drop (s + 1)).take (p - (s + 1)))
      ((F.drop m).take (F.length - m)) = true)
    (hglob : glob (P.drop s) (F.drop m) = true) :
    glob (P.drop p) [] = true := by
  have hsegstar : '*' ∉ (P.drop (s + 1)).take (p - (s + 1)) :=
    pwm_no_star _ _ hpwm (fun hm => hF (List.drop_subset m F (List.take_subset _ _ hm)))
  have hprefall : (F.drop m).take (F.length - m) = F.drop m := by
    have : (F.drop m).length = F.length - m := List.length_drop m F
    rw [← this, List.take_length]
  have hPs : P.drop s = '*' :: P.drop (s + 1) := get?_drop_cons hs
  have harith1 : s + 1 + (p - (s + 1)) = p := by omega
  have hPseg : P.drop (s + 1) = (P.drop (s + 1)).take (p - (s + 1)) ++ P.drop p := by
    have h0 := List.take_append_drop (p - (s + 1)) (P.drop (s + 1))
    rw [List.drop_drop, harith1] at h0
    exact h0.symm
  rw [hPs, hPseg, glob_star_cons, anySuffix_iff] at hglob
  obtain ⟨k, hk⟩ := hglob
  obtain ⟨pref2, post2, hsplit2, hpwm2, hglob2⟩ := glob_append_split _ _ _ hsegstar hk
  have hlen2 := pwm_length _ _ hpwm2
  have hlenp := pwm_length _ _ hpwm
  rw [hprefall] at hlenp
  -- length bookkeeping forces `k = 0` and an empty tail
  have hlens : ((F.drop m).drop k).length = pref2.length + post2.length := by
    rw [hsplit2, List.length_append]
  rw [List.length_drop, List.length_drop] at hlens
  have hlenFm : (F.drop m).length = F.length - m := List.length_drop m F
  have hpost2 : post2 = [] := by
    have := hlenFm ▸ hlens
    rw [← hlen2, hlenp, List.length_drop] at this
    have hlen0 : post2.length = 0 := by omega
    exact List.length_eq_zero.mp hlen0
  rw [hpost2] at hglob2
  exact hglob2

theorem rhsB_some (P F : List Char) (p f s m : Nat) :
    rhsB P F p f (some s) m =
      (glob (P.drop p) (F.drop f) || glob (P.drop s) (F.drop m)) := rfl

theorem rhsB_none (P F : List Char) (p f m : Nat) :
    rhsB P F p f none m = glob (P.drop p) (F.drop f) := Bool.or_false _

theorem gloop_succ (P F : List Char) (fuel p f : Nat) (star : Option Nat) (m : Nat) :
    gloop P F (fuel + 1) p f star m =
      if hf : f < F.length then
        match P.get? p with
        | some c =>
          if c == F.get ⟨f, hf⟩ || c == '?' then gloop P F fuel (p + 1) (f + 1) star m
          else if c == '*' then gloop P F fuel (p + 1) f (some p) f
          else
            match star with
            | some s => gloop P F fuel (s + 1) (m + 1) (some s) (m + 1)
            | none => some false
        | none =>
          match star with
          | some s => gloop P F fuel (s + 1) (m + 1) (some s) (m + 1)
          | none => some false
      else
        some (allStarsFrom (P.drop p)) := rfl

/-- In the backtrack step the semantic reading of the loop state is
preserved: the direct match at `(p, f)` has just failed, and restarting the
star one filename position later covers exactly the remaining options. -/
theorem backtrack_rhs (P F : List Char) (hF : '*' ∉ F) (s p f m : Nat)
    (hs : P.get? s = some '*') (hsp : s + 1 ≤ p)
    (hfm : f - m = p - (s + 1)) (hmf : m ≤ f) (hf : f < F.length)
    (hpwm : pwm ((P.drop (s + 1)).take (p - (s + 1))) ((F.drop m).take (f - m)) = true)
    (hmis : glob (P.drop p) (F.drop f) = false) :
    rhsB P F (s + 1) (m + 1) (some s) (m + 1) = rhsB P F p f (some s) m := by
  have hsegstar : '*' ∉ (P.drop (s + 1)).take (p - (s + 1)) :=
    pwm_no_star _ _ hpwm (fun hm => hF (List.drop_subset m F (List.take_subset _ _ hm)))
  have hPs : P.drop s = '*' :: P.drop (s + 1) := get?_drop_cons hs
  have harith1 : s + 1 + (p - (s + 1)) = p := by omega
  have hPseg : P.drop (s + 1) = (P.drop (s + 1)).take (p - (s + 1)) ++ P.drop p := by
    have h0 := List.take_append_drop (p - (s + 1)) (P.drop (s + 1))
    rw [List.drop_drop, harith1] at h0
    exact h0.symm
  have harith2 : m + (f - m) = f := by omega
  have hFm : F.drop m = (F.drop m).take (f - m) ++ F.drop f := by
    have h0 := List.take_append_drop (f - m) (F.drop m)
    rw [List.drop_drop, harith2] at h0
    exact h0.symm
  have hs1m : glob (P.drop (s + 1)) (F.drop m) = false := by
    rw [hPseg, hFm, glob_append_pwm _ _ _ _ hpwm hsegstar]
    exact hmis
  have hmlt : m < F.length := lt_of_le_of_lt hmf hf
  have hcons : F.drop m = F.get ⟨m, hmlt⟩ :: F.drop (m + 1) :=
    get?_drop_cons (List.get?_eq_get hmlt)
  have hold : glob (P.drop s) (F.drop m)
      = anySuffix (glob (P.drop (s + 1))) (F.drop (m + 1)) := by
    rw [hPs, glob_star_cons, hcons, anySuffix, ← hcons, hs1m, Bool.false_or]
  rw [rhsB_some, rhsB_some, hmis, Bool.false_or, hold, hPs, glob_star_cons]
  cases hcur : glob (P.drop (s + 1)) (F.drop (m + 1)) with
  | false => rw [Bool.false_or]
  | true =>
    rw [anySuffix_self hcur]
    rfl

/-- The greedy loop, run with enough fuel from a state satisfying the
invariant, returns exactly the semantic reading of that state. -/
theorem gloop_eq_rhsB (P F : List Char) (hF : '*' ∉ F) :
    ∀ (fuel p f m : Nat) (star : Option Nat), VS P F p f star m →
      mu P F p f m < fuel →
      gloop P F fuel p f star m = some (rhsB P F p f star m) := by
  intro fuel
  induction fuel with
  | zero =>
    intro p f m star _ hmu
    exact absurd hmu (Nat.not_lt_zero _)
  | succ fuel ih =>
    intro p f m star hVS hmu
    obtain ⟨hfn, hpn, hmf, hstarinv⟩ := hVS
    rw [gloop_succ]
    by_cases hf : f < F.length
    · rw [dif_pos hf]
      have hdF : F.drop f = F.get ⟨f, hf⟩ :: F.drop (f + 1) :=
        get?_drop_cons (List.get?_eq_get hf)
      have hdstar : F.get ⟨f, hf⟩ ≠ '*' := fun h => hF (h ▸ List.get_mem F f hf)
      cases hP : P.get? p with
      | some c =>
        dsimp only
        have hplt : p < P.length := get?_some_lt hP
        have hdP : P.drop p = c :: P.drop (p + 1) := get?_drop_cons hP
        by_cases hcd : (c == F.get ⟨f, hf⟩ || c == '?') = true
        · rw [if_pos hcd]
          have hcd2 : (c == '?' || c == F.get ⟨f, hf⟩) = true := by
            rw [Bool.or_comm]
            exact hcd
          have hcstar : c ≠ '*' := by
            intro hc
            rcases Bool.or_eq_true_iff.mp hcd with h1 | h1
            · exact hdstar (by rw [← beq_iff_eq.mp h1, hc])
            · rw [hc] at h1
              exact absurd h1 (by decide)
          have hfirst : glob (P.drop p) (F.drop f)
              = glob (P.drop (p + 1)) (F.drop (f + 1)) := by
            rw [hdP, hdF, glob_cons_no_star hcstar]
            dsimp only
            rw [hcd2, Bool.true_and]
          have hrhs : rhsB P F (p + 1) (f + 1) star m = rhsB P F p f star m := by
            cases star with
            | none => rw [rhsB_none, rhsB_none, hfirst]
            | some s => rw [rhsB_some, rhsB_some, hfirst]
          have hVS2 : VS P F (p + 1) (f + 1) star m := by
            refine ⟨hf, hplt, hmf.trans (Nat.le_succ f), ?_⟩
            cases star with
            | none => exact trivial
            | some s =>
              obtain ⟨hs0, hsp0, hfm0, hpwm0⟩ := hstarinv
              refine ⟨hs0, hsp0.trans (Nat.le_succ p), by omega, ?_⟩
              have e1 : p + 1 - (s + 1) = (p - (s + 1)) + 1 := by omega
              have e2 : f + 1 - m = (f - m) + 1 := by omega
              have hg1 : (P.drop (s + 1))[p - (s + 1)]? = some c := by
                rw [← List.get?_eq_getElem?, List.get?_drop]
                have e3 : s + 1 + (p - (s + 1)) = p := by omega
                rw [e3]
                exact hP
              have hg2 : (F.drop m)[f - m]? = some (F.get ⟨f, hf⟩) := by
                rw [← List.get?_eq_getElem?, List.get?_drop]
                have e4 : m + (f - m) = f := by omega
                rw [e4]
                exact List.get?_eq_get hf
              rw [e1, e2, List.take_succ, List.take_succ, hg1, hg2]
              exact pwm_append_single _ _ _ _ hpwm0 hcd2
          have hmu2 : mu P F (p + 1) (f + 1) m < fuel := by
            unfold mu at hmu ⊢
            omega
          rw [← hrhs]
          exact ih (p + 1) (f + 1) m star hVS2 hmu2
        · rw [if_neg hcd]
          by_cases hcs : (c == '*') = true
          · rw [if_pos hcs]
            have hceq : c = '*' := beq_iff_eq.mp hcs
            have hsP : P.get? p = some '*' := by rw [hP, hceq]
            have hdPs : P.drop p = '*' :: P.drop (p + 1) := get?_drop_cons hsP
            have hnew : rhsB P F (p + 1) f (some p) f = glob (P.drop p) (F.drop f) := by
              rw [rhsB_some]
              cases hg : glob (P.drop (p + 1)) (F.drop f) with
              | false => rw [Bool.false_or]
              | true =>
                have habs : glob (P.drop p) (F.drop f) = true := by
                  rw [hdPs]
                  exact glob_star_absorb hg
                rw [habs]
                rfl
            have hrhs : rhsB P F (p + 1) f (some p) f = rhsB P F p f star m := by
              cases star with
              | none => rw [hnew, rhsB_none]
              | some s =>
                obtain ⟨hs0, hsp0, hfm0, hpwm0⟩ := hstarinv
                rw [hnew, rhsB_some]
                cases hsm : glob (P.drop s) (F.drop m) with
                | false => rw [Bool.or_false]
                | true =>
                  have hcur :=
                    star_glob_to_cur P F hF s p f m hs0 hsp0 hpn hfm0 hmf hfn hpwm0 hsP hsm
                  rw [hcur]
                  rfl
            have hVS2 : VS P F (p + 1) f (some p) f := by
              refine ⟨hfn, hplt, Nat.le_refl f, hsP, Nat.le_refl (p + 1), by omega, ?_⟩
              rw [Nat.sub_self, Nat.sub_self, List.take_zero, List.take_zero]
              rfl
            have hmul : (F.length - f) * (P.length + F.length + 1)
                ≤ (F.length - m) * (P.length + F.length + 1) :=
              Nat.mul_le_mul_right _ (Nat.sub_le_sub_left hmf F.length)
            have hmu2 : mu P F (p + 1) f f < fuel := by
              unfold mu at hmu ⊢
              omega
            rw [← hrhs]
            exact ih (p + 1) f f (some p) hVS2 hmu2
          · rw [if_neg hcs]
            have hcne : c ≠ '*' := fun h => hcs (by rw [h]; rfl)
            have hb : (c == F.get ⟨f, hf⟩ || c == '?') = false := by
              cases hx : (c == F.get ⟨f, hf⟩ || c == '?') with
              | false => rfl
              | true => exact absurd hx hcd
            have hb2 : (c == '?' || c == F.get ⟨f, hf⟩) = false := by
              rw [Bool.or_comm]
              exact hb
            have hmis : glob (P.drop p) (F.drop f) = false := by
              rw [hdP, hdF, glob_cons_no_star hcne]
              dsimp only
              rw [hb2, Bool.false_and]
            cases star with
            | none =>
              dsimp only
              rw [rhsB_none, hmis]
            | some s =>
              dsimp only
              obtain ⟨hs0, hsp0, hfm0, hpwm0⟩ := hstarinv
              have hrhs := backtrack_rhs P F hF s p f m hs0 hsp0 hfm0 hmf hf hpwm0 hmis
              have hmlt : m < F.length := lt_of_le_of_lt hmf hf
              have hslt : s < P.length := get?_some_lt hs0
              have hVS2 : VS P F (s + 1) (m + 1) (some s) (m + 1) := by
                refine ⟨hmlt, hslt, Nat.le_refl (m + 1), hs0, Nat.le_refl (s + 1),
                  by omega, ?_⟩
                rw [Nat.sub_self, Nat.sub_self, List.take_zero, List.take_zero]
                rfl
              have hKsplit : (F.length - m) * (P.length + F.length + 1)
                  = (F.length - (m + 1)) * (P.length + F.length + 1)
                    + (P.length + F.length + 1) := by
                have h1 : F.length - m = (F.length - (m + 1)) + 1 := by omega
                rw [h1, Nat.succ_mul]
              have hmu2 : mu P F (s + 1) (m + 1) (m + 1) < fuel := by
                unfold mu at hmu ⊢
                omega
              rw [← hrhs]
              exact ih (s + 1) (m + 1) (m + 1) (some s) hVS2 hmu2
      | none =>
        dsimp only
        have hpge : P.length ≤ p := by
          by_contra hlt
          push_neg at hlt
          rw [List.get?_eq_get hlt] at hP
          cases hP
        have hdPnil : P.drop p = [] := List.drop_eq_nil_of_le hpge
        have hmis : glob (P.drop p) (F.drop f) = false := by
          rw [hdPnil, hdF, glob_nil_eq]
          rfl
        cases star with
        | none =>
          dsimp only
          rw [rhsB_none, hmis]
        | some s =>
          dsimp only
          obtain ⟨hs0, hsp0, hfm0, hpwm0⟩ := hstarinv
          have hrhs := backtrack_rhs P F hF s p f m hs0 hsp0 hfm0 hmf hf hpwm0 hmis
          have hmlt : m < F.length := lt_of_le_of_lt hmf hf
          have hslt : s < P.length := get?_some_lt hs0
          have hVS2 : VS P F (s + 1) (m + 1) (some s) (m + 1) := by
            refine ⟨hmlt, hslt, Nat.le_refl (m + 1), hs0, Nat.le_refl (s + 1),
              by omega, ?_⟩
            rw [Nat.sub_self, Nat.sub_self, List.take_zero, List.take_zero]
            rfl
          have hKsplit : (F.length - m) * (P.length + F.length + 1)
              = (F.length - (m + 1)) * (P.length + F.length + 1)
                + (P.length + F.length + 1) := by
            have h1 : F.length - m = (F.length - (m + 1)) + 1 := by omega
            rw [h1, Nat.succ_mul]
          have hmu2 : mu P F (s + 1) (m + 1) (m + 1) < fuel := by
            unfold mu at hmu ⊢
            omega
          rw [← hrhs]
          exact ih (s + 1) (m + 1) (m + 1) (some s) hVS2 hmu2
    · rw [dif_neg hf]
      have hfeq : f = F.length := Nat.le_antisymm hfn (Nat.le_of_not_lt hf)
      subst hfeq
      have hdFnil : F.drop F.length = [] := List.drop_eq_nil_of_le (Nat.le_refl _)
      cases star with
      | none =>
        rw [rhsB_none, hdFnil, glob_nil_right]
      | some s =>
        obtain ⟨hs0, hsp0, hfm0, hpwm0⟩ := hstarinv
        rw [rhsB_some, hdFnil, glob_nil_right]
        cases hsm : glob (P.drop s) (F.drop m) with
        | false => rw [Bool.or_false]
        | true =>
          have hexit := star_glob_exit P F hF s p m hs0 hsp0 hpn hfm0 hmf hpwm0 hsm
          rw [glob_nil_right] at hexit
          rw [hexit]
          rfl

/-- The fuel `greedyFuel` is sufficient: from the initial state the greedy
loop terminates and computes exactly the specification glob. -/
theorem gloop_glob (P F : List Char) (hF : '*' ∉ F) :
    gloop P F (greedyFuel P F) 0 0 none 0 = some (glob P F) := by
  have hVS : VS P F 0 0 none 0 := ⟨Nat.zero_le _, Nat.zero_le _, Nat.le_refl 0, trivial⟩
  have hexp : (F.length + 1) * (P.length + F.length + 2)
      = F.length * (P.length + F.length + 1) + F.length + (P.length + F.length + 2) := by
    ring
  have hmu : mu P F 0 0 0 < greedyFuel P F := by
    unfold mu greedyFuel
    simp only [Nat.sub_zero]
    omega
  have h := gloop_eq_rhsB P F hF (greedyFuel P F) 0 0 0 none hVS hmu
  rw [h, rhsB_none, List.drop_zero, List.drop_zero]

/-- C9: counterexample to the claim as stated.  The matcher tests the
literal-equality branch before the `'*'` branch, so a `'*'` in the filename
aligned with a pattern `'*'` is consumed as a literal character.  For
filename `"*ba"` and pattern `"*a"` glob semantics accept (the star covers
`"*b"`), but `matchesPattern` advances past both stars in lockstep, then
fails on `'a'` vs `'b'` with no star recorded. -/
theorem C9_counterexample :
    matchesPattern ['*', 'b', 'a'] ['*', 'a'] = false ∧
    glob ['*', 'a'] ['*', 'b', 'a'] = true := by
  decide

/-- C9: amended claim.  For filenames that do not themselves contain `'*'`,
`FileSystem::matchesPattern` implements exactly the specified semantics:
glob matching (`'?'` one character, `'*'` zero or more, whole filename
covered) when the pattern contains a wildcard, and substring containment
when it does not. -/
theorem C9_matcher_amended (filename pattern : List Char) (hF : '*' ∉ filename) :
    ((pattern.contains '*' || pattern.contains '?') = true →
      matchesPattern filename pattern = glob pattern filename) ∧
    ((pattern.contains '*' || pattern.contains '?') = false →
      (matchesPattern filename pattern = true ↔
        ∃ pre post, filename = pre ++ pattern ++ post)) := by
  constructor
  · intro hw
    rw [matchesPattern, if_pos hw, gloop_glob pattern filename hF]
    rfl
  · intro hw
    rw [matchesPattern, if_neg (fun hc => Bool.false_ne_true (hw ▸ hc))]
    exact substrCheck_iff pattern filename

theorem C9_witness :
    (matchesPattern ['a', 'b'] ['*', 'b'] = glob ['*', 'b'] ['a', 'b']) ∧
    (matchesPattern ['a', 'b'] ['a'] = true ↔
      ∃ pre post, ['a', 'b'] = pre ++ ['a'] ++ post) :=
  ⟨(C9_matcher_amended ['a', 'b'] ['*', 'b'] (by decide)).1 (by decide),
   (C9_matcher_amended ['a', 'b'] ['a'] (by decide)).2 (by decide)⟩
